import Mathlib

/-!
# Pizzeria simulator (`ConsoleApplication3.cpp`): embedding and verified properties

The definitions below follow the classes of `ConsoleApplication3.cpp` one by one.

Modelling conventions.

* `float` prices are rationals (`ℚ`).  The methods are given twice where they do arithmetic on
  prices: once with `+=` and `-=` as exact addition and subtraction, which is the reading of the
  statements made in exact arithmetic, and once (suffix `F32`) with every `+=` and `-=` rounded
  to IEEE 754 binary32, to nearest with ties to even, as the `float` members of the source are.
  Infinities, NaN and results of magnitude `2^128` and above are not modelled.
* `int` is `Int`; a `size_t` size converted with `static_cast<int>` is the length of the list (the
  vectors are taken to hold fewer than `2^31` elements and the id counter not to overflow).
* `std::shared_ptr<MenuItem>` is a `Option Ptr` into an explicit free store `Heap` of `MenuItem`
  objects: `none` is `nullptr`, `std::make_shared` is `Heap.alloc`, and a method that mutates
  `*this` rewrites the cell of its pointer.  Sharing between the catalog and the orders is
  therefore visible in the model.  Objects are never reclaimed in the model.
* `std::shared_ptr<Order>` values are only ever held by the `orders` vector, one slot per object,
  and are modelled by the `Order` record itself.
* Text read from `std::cin` is passed to each operation as arguments, one argument per prompt the
  operation can issue; an operation consults an argument only on the path that issues its prompt.
* Text written to `std::cout`: only the fixed status lines are recorded (type `Out`); prompts and
  the listings printed by `display`, `displayMenu`, `displayOrder` change no state and are left out.
-/

namespace ConsoleApplication3

/-- The status lines an operation wrote to `std::cout`, oldest first. -/
abbrev Out := List String

/-- The scoped enumeration `OrderType`, with underlying type `int`:
`static_cast<OrderType>(n)` is defined for every `n`. -/
structure OrderType where
  val : Int
deriving DecidableEq

/-- Enumerator `OrderType::DINE_IN`. -/
def OrderType.DINE_IN : OrderType := ⟨0⟩

/-- Enumerator `OrderType::TAKEAWAY`. -/
def OrderType.TAKEAWAY : OrderType := ⟨1⟩

/-- Enumerator `OrderType::DELIVERY`. -/
def OrderType.DELIVERY : OrderType := ⟨2⟩

/-- The scoped enumeration `OrderStatus`, with underlying type `int`. -/
structure OrderStatus where
  val : Int
deriving DecidableEq

/-- Enumerator `OrderStatus::PENDING`. -/
def OrderStatus.PENDING : OrderStatus := ⟨0⟩

/-- Enumerator `OrderStatus::PREPARING`. -/
def OrderStatus.PREPARING : OrderStatus := ⟨1⟩

/-- Enumerator `OrderStatus::READY`. -/
def OrderStatus.READY : OrderStatus := ⟨2⟩

/-- Enumerator `OrderStatus::DELIVERED`. -/
def OrderStatus.DELIVERED : OrderStatus := ⟨3⟩

/-- Enumerator `OrderStatus::CANCELLED`. -/
def OrderStatus.CANCELLED : OrderStatus := ⟨4⟩

/-! ## Topping -/

/-- Class `Topping`: a name and a price, fixed by the constructor. -/
structure Topping where
  name : String
  price : ℚ
deriving DecidableEq

/-- Accessor `Topping::getName`. -/
def Topping.getName (t : Topping) : String := t.name

/-- Accessor `Topping::getPrice`. -/
def Topping.getPrice (t : Topping) : ℚ := t.price

/-! ## MenuItem and its three subclasses -/

/-- The dynamic class of a `MenuItem` object. -/
inductive Variant where
  | Pizza
  | Drink
  | SideDish
deriving DecidableEq

/-- A `MenuItem` object: the members `name`, `price`, `toppings` of the base class, and the
subclass the object was created as. -/
structure MenuItem where
  variant : Variant
  name : String
  price : ℚ
  toppings : List Topping
deriving DecidableEq

instance : Inhabited MenuItem := ⟨⟨Variant.Pizza, "", 0, []⟩⟩

/-- Constructor `Pizza(name, price)`: the base constructor leaves `toppings` empty. -/
def Pizza.mk (name : String) (price : ℚ) : MenuItem :=
  { variant := Variant.Pizza, name := name, price := price, toppings := [] }

/-- Constructor `Drink(name, price)`. -/
def Drink.mk (name : String) (price : ℚ) : MenuItem :=
  { variant := Variant.Drink, name := name, price := price, toppings := [] }

/-- Constructor `SideDish(name, price)`. -/
def SideDish.mk (name : String) (price : ℚ) : MenuItem :=
  { variant := Variant.SideDish, name := name, price := price, toppings := [] }

/-- Method `MenuItem::getPrice`: `total = price`, then `total += t.getPrice()` for each topping
in order. -/
def MenuItem.getPrice (m : MenuItem) : ℚ :=
  m.toppings.foldl (fun total t => total + t.getPrice) m.price

/-- Method `MenuItem::getName`. -/
def MenuItem.getName (m : MenuItem) : String := m.name

/-- Method `MenuItem::addTopping`, as the new value of `*this`: `toppings.push_back(topping)`. -/
def MenuItem.addTopping (m : MenuItem) (topping : Topping) : MenuItem :=
  { m with toppings := m.toppings ++ [topping] }

/-- The object built by `Pizza::clone`: the copy constructor of `Pizza` applied to `*this`. -/
def Pizza.clone (this : MenuItem) : MenuItem :=
  { variant := Variant.Pizza, name := this.name, price := this.price, toppings := this.toppings }

/-- The object built by `Drink::clone`. -/
def Drink.clone (this : MenuItem) : MenuItem :=
  { variant := Variant.Drink, name := this.name, price := this.price, toppings := this.toppings }

/-- The object built by `SideDish::clone`. -/
def SideDish.clone (this : MenuItem) : MenuItem :=
  { variant := Variant.SideDish, name := this.name, price := this.price,
    toppings := this.toppings }

/-- Virtual dispatch of `clone` on the dynamic class of the object. -/
def MenuItem.clone (m : MenuItem) : MenuItem :=
  match m.variant with
  | Variant.Pizza => Pizza.clone m
  | Variant.Drink => Drink.clone m
  | Variant.SideDish => SideDish.clone m

/-! ## The free store of MenuItem objects -/

/-- The address of a `MenuItem` object. -/
abbrev Ptr := Nat

/-- The free store: the object at each address, and the first address not handed out yet. -/
structure Heap where
  cells : Ptr → MenuItem
  next : Ptr

/-- The store before any allocation. -/
def Heap.empty : Heap := { cells := fun _ => default, next := 0 }

/-- Dereference `*p`. -/
def Heap.read (h : Heap) (p : Ptr) : MenuItem := h.cells p

/-- Overwrite the object at `p`. -/
def Heap.write (h : Heap) (p : Ptr) (m : MenuItem) : Heap :=
  { h with cells := Function.update h.cells p m }

/-- Allocation by `std::make_shared`: the object is placed at a fresh address, which is
returned. -/
def Heap.alloc (h : Heap) (m : MenuItem) : Heap × Ptr :=
  ({ cells := Function.update h.cells h.next m, next := h.next + 1 }, h.next)

/-- The call `item->getPrice()`. -/
def Heap.getPrice (h : Heap) (item : Ptr) : ℚ := (h.read item).getPrice

/-- The call `item->getName()`. -/
def Heap.getName (h : Heap) (item : Ptr) : String := (h.read item).getName

/-- The call `item->addTopping(topping)`: the object at `item` is updated in place. -/
def Heap.addTopping (h : Heap) (item : Ptr) (topping : Topping) : Heap :=
  h.write item ((h.read item).addTopping topping)

/-- The call `item->clone()`: `std::make_shared` of a copy of the object at `item`. -/
def Heap.clone (h : Heap) (item : Ptr) : Heap × Ptr :=
  h.alloc (h.read item).clone

/-- A finite sequence of `addTopping` calls on the same pointer. -/
def Heap.addToppings (h : Heap) (item : Ptr) (ts : List Topping) : Heap :=
  ts.foldl (fun h t => h.addTopping item t) h

/-- A finite sequence of `addTopping` calls on the same object, as the new value of `*this`. -/
def MenuItem.addToppings (m : MenuItem) (ts : List Topping) : MenuItem :=
  ts.foldl MenuItem.addTopping m

/-! ## Menu -/

/-- Class `Menu`: the vector `items` of pointers to the catalog entries. -/
structure Menu where
  items : List Ptr
deriving DecidableEq

/-- Constructor `Menu()`: four entries are allocated and pushed in this order. -/
def Menu.new (h : Heap) : Heap × Menu :=
  let a0 := h.alloc (Pizza.mk "Margherita" 5.5)
  let a1 := a0.1.alloc (Pizza.mk "Pepperoni" 6.5)
  let a2 := a1.1.alloc (Drink.mk "Coke" 1.5)
  let a3 := a2.1.alloc (SideDish.mk "Garlic Bread" 2.0)
  (a3.1, { items := [a0.2, a1.2, a2.2, a3.2] })

/-- Method `Menu::getItemCopy`: a clone of entry `index` when `0 <= index < items.size()`,
`nullptr` otherwise.  (The inner `none` branch is never taken: the index is in range.) -/
def Menu.getItemCopy (menu : Menu) (h : Heap) (index : Int) : Heap × Option Ptr :=
  if 0 ≤ index ∧ index < (menu.items.length : Int) then
    match menu.items[index.toNat]? with
    | some p => ((h.clone p).1, some (h.clone p).2)
    | none => (h, none)
  else
    (h, none)

/-- Method `Menu::addNewItem`, with the three values it reads (`type`, `name`, `price`) as
arguments. -/
def Menu.addNewItem (menu : Menu) (h : Heap) (type : Int) (name : String) (price : ℚ) :
    Heap × Menu × Out :=
  if type = 0 then
    ((h.alloc (Pizza.mk name price)).1,
      { items := menu.items ++ [(h.alloc (Pizza.mk name price)).2] }, [])
  else if type = 1 then
    ((h.alloc (Drink.mk name price)).1,
      { items := menu.items ++ [(h.alloc (Drink.mk name price)).2] }, [])
  else if type = 2 then
    ((h.alloc (SideDish.mk name price)).1,
      { items := menu.items ++ [(h.alloc (SideDish.mk name price)).2] }, [])
  else
    (h, menu, ["Invalid type.\n"])

/-! ## Order -/

/-- Class `Order`. -/
structure Order where
  id : Int
  customerName : String
  type : OrderType
  deliveryAddress : String
  status : OrderStatus
  items : List Ptr
  total : ℚ
deriving DecidableEq

/-- Constructor `Order(id, name, type, address)`: status `PENDING`, no items, total `0.0f`. -/
def Order.new (id : Int) (name : String) (type : OrderType) (address : String) : Order :=
  { id := id, customerName := name, type := type, deliveryAddress := address,
    status := OrderStatus.PENDING, items := [], total := 0 }

/-- Method `Order::addItem`: for a non-null `item`, `total += item->getPrice()` and
`items.push_back(item)`; nothing for `nullptr`. -/
def Order.addItem (o : Order) (h : Heap) (item : Option Ptr) : Order :=
  match item with
  | some p => { o with total := o.total + h.getPrice p, items := o.items ++ [p] }
  | none => o

/-- Method `Order::removeItem`.  (The inner `none` branch is never taken.) -/
def Order.removeItem (o : Order) (h : Heap) (index : Int) : Order × Out :=
  if 0 ≤ index ∧ index < (o.items.length : Int) then
    match o.items[index.toNat]? with
    | some p =>
      ({ o with total := o.total - h.getPrice p, items := o.items.eraseIdx index.toNat },
        ["Item removed from order.\n"])
    | none => (o, [])
  else
    (o, ["Invalid index.\n"])

/-- Method `Order::calculateTotal`: `total = 0.0f`, then `total += item->getPrice()` for each
item in order. -/
def Order.calculateTotal (o : Order) (h : Heap) : Order :=
  { o with total := o.items.foldl (fun total item => total + h.getPrice item) 0 }

/-- Accessor `Order::getId`. -/
def Order.getId (o : Order) : Int := o.id

/-- Method `Order::updateStatus`. -/
def Order.updateStatus (o : Order) (newStatus : OrderStatus) : Order :=
  { o with status := newStatus }

/-- One call of the two mutators of an order that take an item or an index. -/
inductive OrderCall where
  | addItem (item : Option Ptr)
  | removeItem (index : Int)
deriving DecidableEq

/-- Perform one call on an order. -/
def Order.call (h : Heap) (o : Order) : OrderCall → Order
  | OrderCall.addItem item => o.addItem h item
  | OrderCall.removeItem index => (o.removeItem h index).1

/-- Perform a sequence of calls on an order, first call first. -/
def Order.calls (h : Heap) (o : Order) (cs : List OrderCall) : Order :=
  cs.foldl (Order.call h) o

/-! ## Pizzeria -/

/-- Class `Pizzeria`: the members `menu`, `orders`, `nextOrderId`, together with the free store
holding the `MenuItem` objects they point to.  The member `predefinedToppings` is never assigned
after its initialiser and is the constant `Pizzeria.predefinedToppings`. -/
structure Pizzeria where
  heap : Heap
  menu : Menu
  orders : List Order
  nextOrderId : Int

/-- The default member initialiser of `predefinedToppings`. -/
def Pizzeria.predefinedToppings : List Topping :=
  [ { name := "Cheese", price := 0.5 },
    { name := "Olives", price := 0.3 },
    { name := "Mushrooms", price := 0.4 },
    { name := "Pepperoni", price := 0.6 },
    { name := "Pineapple", price := 0.5 },
    { name := "Tomatoes", price := 0.25 } ]

/-- Constructor `Pizzeria()`: the menu is seeded, there are no orders, `nextOrderId` is `1`. -/
def Pizzeria.new (h : Heap) : Pizzeria :=
  { heap := (Menu.new h).1, menu := (Menu.new h).2, orders := [], nextOrderId := 1 }

/-- What the user enters during one pass of the `while (adding)` loop of `takeOrder`:
`index` at the first prompt; `removeIndex`, asked for only when `index` is `-2`; and, asked for
only when `index` selects a catalog entry, the topping indices entered after each `y`/`Y`
answer, the list ending where the user answers anything else. -/
structure Round where
  index : Int
  removeIndex : Int
  toppingIndices : List Int
deriving DecidableEq

/-- The `do ... while` loop of `takeOrder` that offers toppings for `item`. -/
def Pizzeria.toppingLoop (h : Heap) (item : Ptr) : List Int → Heap × Out
  | [] => (h, [])
  | toppingIndex :: rest =>
    if 0 ≤ toppingIndex ∧ toppingIndex < (Pizzeria.predefinedToppings.length : Int) then
      match Pizzeria.predefinedToppings[toppingIndex.toNat]? with
      | some t => Pizzeria.toppingLoop (h.addTopping item t) item rest
      | none => Pizzeria.toppingLoop h item rest
    else
      ((Pizzeria.toppingLoop h item rest).1,
        "Invalid topping index.\n" :: (Pizzeria.toppingLoop h item rest).2)

/-- The `while (adding)` loop of `takeOrder`.  The end of the list is the final `-1`. -/
def Pizzeria.itemLoop (menu : Menu) : Heap → Order → List Round → Heap × Order × Out
  | h, order, [] => (h, order, [])
  | h, order, r :: rest =>
    if r.index = -1 then
      (h, order, [])
    else if r.index = -2 then
      let rm := order.removeItem h r.removeIndex
      let k := Pizzeria.itemLoop menu h rm.1 rest
      (k.1, k.2.1, rm.2 ++ k.2.2)
    else
      match menu.getItemCopy h r.index with
      | (h1, some item) =>
        let tl := Pizzeria.toppingLoop h1 item r.toppingIndices
        let k := Pizzeria.itemLoop menu tl.1 (order.addItem tl.1 (some item)) rest
        (k.1, k.2.1, tl.2 ++ k.2.2)
      | (h1, none) =>
        let k := Pizzeria.itemLoop menu h1 order rest
        (k.1, k.2.1, "Invalid item.\n" :: k.2.2)

/-- Everything `takeOrder` reads: the customer name, the order type, the address (asked for
only when the type is `DELIVERY`) and the passes of the item loop. -/
structure OrderInput where
  name : String
  typeInput : Int
  address : String
  rounds : List Round
deriving DecidableEq

/-- Method `Pizzeria::takeOrder`. -/
def Pizzeria.takeOrder (p : Pizzeria) (input : OrderInput) : Pizzeria × Out :=
  let type : OrderType := { val := input.typeInput }
  let address := if type = OrderType.DELIVERY then input.address else ""
  let order := Order.new p.nextOrderId input.name type address
  let k := Pizzeria.itemLoop p.menu p.heap order input.rounds
  ({ heap := k.1, menu := p.menu, orders := p.orders ++ [k.2.1.calculateTotal k.1],
     nextOrderId := p.nextOrderId + 1 },
    k.2.2 ++ ["\nOrder placed successfully!\n"])

/-- The scan `for (auto& order : orders) if (order->getId() == id) ... return;` shared by
`updateOrderStatus` and `cancelOrder`: the first order with this id gets the status, `none` when
the scan runs to the end. -/
def Pizzeria.scan (id : Int) (newStatus : OrderStatus) : List Order → Option (List Order)
  | [] => none
  | order :: rest =>
    if order.getId = id then
      some (order.updateStatus newStatus :: rest)
    else
      (Pizzeria.scan id newStatus rest).map (fun l => order :: l)

/-- Method `Pizzeria::updateOrderStatus`; `statusInput` is read only when the id is found. -/
def Pizzeria.updateOrderStatus (p : Pizzeria) (id : Int) (statusInput : Int) : Pizzeria × Out :=
  match Pizzeria.scan id { val := statusInput } p.orders with
  | some l => ({ p with orders := l }, ["Order status updated.\n"])
  | none => (p, ["Order not found.\n"])

/-- Method `Pizzeria::cancelOrder`. -/
def Pizzeria.cancelOrder (p : Pizzeria) (id : Int) : Pizzeria × Out :=
  match Pizzeria.scan id OrderStatus.CANCELLED p.orders with
  | some l => ({ p with orders := l }, ["Order #" ++ toString id ++ " has been cancelled.\n"])
  | none => (p, ["Order not found.\n"])

/-- Method `Pizzeria::showAllOrders`: a listing only. -/
def Pizzeria.showAllOrders (p : Pizzeria) : Pizzeria × Out := (p, [])

/-- Method `Pizzeria::addMenuItem`: `menu.addNewItem()`. -/
def Pizzeria.addMenuItem (p : Pizzeria) (type : Int) (name : String) (price : ℚ) :
    Pizzeria × Out :=
  ({ p with heap := (p.menu.addNewItem p.heap type name price).1,
            menu := (p.menu.addNewItem p.heap type name price).2.1 },
    (p.menu.addNewItem p.heap type name price).2.2)

/-- One pass of the `do ... while (choice != 0)` loop of `main`: the choice entered, with what
the chosen operation goes on to read. -/
inductive Command where
  | takeOrder (input : OrderInput)
  | updateOrderStatus (id : Int) (statusInput : Int)
  | showAllOrders
  | addMenuItem (type : Int) (name : String) (price : ℚ)
  | cancelOrder (id : Int)
  | invalidChoice (choice : Int)
deriving DecidableEq

/-- The `switch (choice)` of `main`, for the choices other than `0`. -/
def Pizzeria.dispatch (p : Pizzeria) : Command → Pizzeria × Out
  | Command.takeOrder input => p.takeOrder input
  | Command.updateOrderStatus id statusInput => p.updateOrderStatus id statusInput
  | Command.showAllOrders => p.showAllOrders
  | Command.addMenuItem type name price => p.addMenuItem type name price
  | Command.cancelOrder id => p.cancelOrder id
  | Command.invalidChoice _ => (p, ["Invalid choice.\n"])

/-- The state after the passes `cs` of the loop of `main`, first pass first. -/
def Pizzeria.run (p : Pizzeria) (cs : List Command) : Pizzeria :=
  cs.foldl (fun q c => (q.dispatch c).1) p

/-- The number of `takeOrder` passes in a run. -/
def Command.countTakeOrder : List Command → Nat
  | [] => 0
  | Command.takeOrder _ :: cs => Command.countTakeOrder cs + 1
  | _ :: cs => Command.countTakeOrder cs

/-- Every pointer of the list is an address already handed out by the store. -/
def Heap.Owns (h : Heap) (ps : List Ptr) : Prop := ∀ p ∈ ps, p < h.next

/-- The ids of the orders are `1, 2, ...` in list order and the counter is the next one. -/
def Pizzeria.IdsSequential (p : Pizzeria) : Prop :=
  p.orders.map Order.getId = (List.range p.orders.length).map (fun (k : Nat) => (k : Int) + 1)
    ∧ p.nextOrderId = (p.orders.length : Int) + 1

/-! ## The price arithmetic in binary32 -/

/-- The number of binades of binary32, among the `254` it has, that lie at or below `m` units
in the last place of the smallest one: for `m` from `2^24` on this is `⌊log₂ m⌋ - 23`, the
number of low bits `m` has beyond the `24` a significand holds, and `0` below. -/
def F32.shift (m : Nat) : Nat :=
  (List.range 254).countP (fun s => 2 ^ (24 + s) ≤ m)

/-- The binary32 value nearest to the fraction `n / d`, ties going to the even significand.
The fraction is measured in units of `2^-149`, the spacing of the smallest binary32 values;
`q` is the significand, of at most `24` bits, and `r` what is left below it. -/
def F32.roundNat (n d : Nat) : ℚ :=
  let N := n * 2 ^ 149
  let shift := F32.shift (N / d)
  let D := d * 2 ^ shift
  let q := N / D
  let r := N % D
  let q1 := if D < 2 * r ∨ (2 * r = D ∧ q % 2 = 1) then q + 1 else q
  ((q1 * 2 ^ shift : Nat) : ℚ) / 2 ^ 149

/-- The binary32 value a real result is rounded to: the value of a literal such as `0.3f`, and
of the result of one `float` operation. -/
def F32.round (x : ℚ) : ℚ :=
  if 0 ≤ x then F32.roundNat x.num.natAbs x.den else - F32.roundNat x.num.natAbs x.den

/-- The predefined topping an entered topping index stands for: the one at that position when
the index is within `0..5`, none otherwise. -/
def Pizzeria.toppingAt (toppingIndex : Int) : Option Topping :=
  if 0 ≤ toppingIndex ∧ toppingIndex < (Pizzeria.predefinedToppings.length : Int) then
    Pizzeria.predefinedToppings[toppingIndex.toNat]?
  else
    none

/-- The toppings chosen by a list of entered topping indices: those of the in-range indices, in
the order entered. -/
def Pizzeria.chosenToppings (toppingIndices : List Int) : List Topping :=
  toppingIndices.filterMap Pizzeria.toppingAt

/-- What one pass of the item loop that is not the final `-1` does to the store and to the
order being built, by the kind of entry: a removal; an index that selects no catalog entry; an
index that selects the entry at `p`, which is cloned to the fresh address `h.next`, given the
chosen toppings, and then added to the order. -/
def Pizzeria.RoundStep (menu : Menu) (h : Heap) (o : Order) (r : Round) (h1 : Heap)
    (o1 : Order) : Prop :=
  (r.index = -2 ∧ h1 = h ∧ o1 = (o.removeItem h r.removeIndex).1)
  ∨ (r.index ≠ -2 ∧ ¬ (0 ≤ r.index ∧ r.index < (menu.items.length : Int)) ∧ h1 = h ∧ o1 = o)
  ∨ (r.index ≠ -2 ∧ (0 ≤ r.index ∧ r.index < (menu.items.length : Int))
      ∧ ∃ p, menu.items[r.index.toNat]? = some p
        ∧ h1 = (h.clone p).1.addToppings h.next (Pizzeria.chosenToppings r.toppingIndices)
        ∧ o1 = o.addItem h1 (some h.next))

/-- Every pointer of the list is a live object whose effective price is not negative. -/
def Heap.NonNeg (h : Heap) (ps : List Ptr) : Prop := ∀ p ∈ ps, p < h.next ∧ 0 ≤ h.getPrice p

/-- Every catalog entry is a live object that carries no topping. -/
def Pizzeria.CatalogPlain (p : Pizzeria) : Prop :=
  ∀ q ∈ p.menu.items, q < p.heap.next ∧ (p.heap.read q).toppings = []

/-- The price entered in an `addMenuItem` pass that adds an entry (selector `0`, `1` or `2`) is
not negative; nothing is asked of the other passes. -/
def Command.PriceOk : Command → Prop
  | Command.addMenuItem type _ price => (type = 0 ∨ type = 1 ∨ type = 2) → 0 ≤ price
  | _ => True

/-- Every catalog entry is a live object with a non-negative effective price, and no order has
a negative total. -/
def Pizzeria.TotalsNonNeg (p : Pizzeria) : Prop :=
  p.heap.NonNeg p.menu.items ∧ ∀ o ∈ p.orders, 0 ≤ o.total

/-! ## Sample states

Concrete stores, menus and orders at which the statements below are exercised. -/

/-- A store with one pizza carrying one topping. -/
def demoHeap : Heap :=
  (Heap.empty.alloc ((Pizza.mk "Margherita" 5.5).addTopping { name := "Olives", price := 0.3 })).1

/-- The pizzeria as `main` constructs it, in an empty store. -/
def seeded : Pizzeria := Pizzeria.new Heap.empty

/-- An order holding the catalog's Margherita and Coke themselves, with the running total
`7.0` that `addItem` gives it. -/
def demoOrder : Order :=
  ((Order.new 7 "Bob" OrderType.TAKEAWAY "").addItem seeded.heap (some 0)).addItem
    seeded.heap (some 2)

/-- A pizzeria holding two orders, with ids `1` and `2`. -/
def twoOrders : Pizzeria :=
  { seeded with
    orders := [Order.new 1 "Alice" OrderType.DINE_IN "", Order.new 2 "Bob" OrderType.TAKEAWAY ""],
    nextOrderId := 3 }

/-- The passes of the item loop in the scenario of the order for Alice: the Margherita (index
`0`) with the topping Cheese (index `0`), the Coke (index `2`) with no topping, then the removal
(`-2`) of position `1`. -/
def aliceRounds : List Round :=
  [ { index := 0, removeIndex := 0, toppingIndices := [0] },
    { index := 2, removeIndex := 0, toppingIndices := [] },
    { index := -2, removeIndex := 1, toppingIndices := [] } ]

/-- The order for Alice as `takeOrder` constructs it in the seeded pizzeria. -/
def alice : Order := Order.new 1 "Alice" OrderType.DINE_IN ""

/-- A run of the main loop with two `takeOrder` passes among other passes. -/
def demoRun : List Command :=
  [ Command.takeOrder { name := "Alice", typeInput := 0, address := "", rounds := aliceRounds },
    Command.cancelOrder 1,
    Command.addMenuItem 1 "Sprite" 1.75,
    Command.updateOrderStatus 9 2,
    Command.takeOrder { name := "Bob", typeInput := 2, address := "1 Main St", rounds := [] } ]

/-- A pizzeria holding a delivered order (id `1`), a cancelled order (id `2`) and a pending
order (id `3`). -/
def statusDemo : Pizzeria :=
  { seeded with
    orders := [(Order.new 1 "Alice" OrderType.DINE_IN "").updateStatus OrderStatus.DELIVERED,
               (Order.new 2 "Bob" OrderType.TAKEAWAY "").updateStatus OrderStatus.CANCELLED,
               Order.new 3 "Carol" OrderType.DELIVERY "1 Main St"],
    nextOrderId := 4 }

/-- Passes of the item loop mixing valid and invalid entries: an index past the catalog, a
negative index other than the two sentinels, the Pepperoni (index `1`) with the topping indices
`7` (invalid), `3` (Pepperoni) and `-1` (invalid), a removal at the invalid position `5`, the
Garlic Bread (index `3`) with the topping `5` (Tomatoes), and a removal at position `0`. -/
def mixedRounds : List Round :=
  [ { index := 9, removeIndex := 0, toppingIndices := [0] },
    { index := -3, removeIndex := 0, toppingIndices := [] },
    { index := 1, removeIndex := 0, toppingIndices := [7, 3, -1] },
    { index := -2, removeIndex := 5, toppingIndices := [] },
    { index := 3, removeIndex := 0, toppingIndices := [5] },
    { index := -2, removeIndex := 0, toppingIndices := [] } ]

/-- A run that adds a pizza priced `-1` to the catalog (it lands at index `4`) and then takes
an order for that pizza alone. -/
def negativeRun : List Command :=
  [ Command.addMenuItem 0 "Refund" (-1),
    Command.takeOrder
      { name := "Eve", typeInput := 0, address := "",
        rounds := [{ index := 4, removeIndex := 0, toppingIndices := [] }] } ]

/-- A running sum started at `a` is `a` plus the sum of the list. -/
theorem foldl_add_eq_add_sum {α : Type} (f : α → ℚ) (l : List α) (a : ℚ) :
    l.foldl (fun total x => total + f x) a = a + (l.map f).sum := by
  induction l generalizing a with
  | nil => simp
  | cons x xs ih => simp [ih, add_assoc]

/-- The effective price is the base price plus the sum of the topping prices. -/
theorem MenuItem.getPrice_eq (m : MenuItem) :
    m.getPrice = m.price + (m.toppings.map Topping.getPrice).sum := by
  unfold MenuItem.getPrice
  exact foldl_add_eq_add_sum Topping.getPrice m.toppings m.price

/-- A sequence of `addTopping` calls appends the toppings and changes no other member. -/
theorem MenuItem.addToppings_eq (m : MenuItem) (ts : List Topping) :
    m.addToppings ts = { m with toppings := m.toppings ++ ts } := by
  induction ts generalizing m with
  | nil => simp [MenuItem.addToppings]
  | cons t ts ih =>
    have h := ih (m.addTopping t)
    simp only [MenuItem.addToppings, List.foldl_cons] at h ⊢
    rw [h]
    simp [MenuItem.addTopping]

/-- The clone has the members of the original, whatever the class. -/
theorem MenuItem.clone_eq (m : MenuItem) : m.clone = m := by
  cases m with
  | mk v n p ts => cases v <;> rfl

/-! ### The free store -/

theorem Heap.read_write_same (h : Heap) (p : Ptr) (m : MenuItem) :
    (h.write p m).read p = m := by
  simp [Heap.read, Heap.write]

theorem Heap.read_write_ne (h : Heap) (p q : Ptr) (m : MenuItem) (hne : q ≠ p) :
    (h.write p m).read q = h.read q := by
  simp [Heap.read, Heap.write, Function.update_noteq hne]

theorem Heap.alloc_snd (h : Heap) (m : MenuItem) : (h.alloc m).2 = h.next := rfl

theorem Heap.alloc_next (h : Heap) (m : MenuItem) : (h.alloc m).1.next = h.next + 1 := rfl

theorem Heap.read_alloc_new (h : Heap) (m : MenuItem) :
    (h.alloc m).1.read h.next = m := by
  simp [Heap.read, Heap.alloc]

theorem Heap.read_alloc_old (h : Heap) (m : MenuItem) (q : Ptr) (hq : q < h.next) :
    (h.alloc m).1.read q = h.read q := by
  have hne : q ≠ h.next := Nat.ne_of_lt hq
  simp [Heap.read, Heap.alloc, Function.update_noteq hne]

theorem Heap.addTopping_next (h : Heap) (item : Ptr) (t : Topping) :
    (h.addTopping item t).next = h.next := rfl

theorem Heap.read_addTopping_same (h : Heap) (item : Ptr) (t : Topping) :
    (h.addTopping item t).read item = (h.read item).addTopping t :=
  Heap.read_write_same h item _

theorem Heap.read_addTopping_ne (h : Heap) (item q : Ptr) (t : Topping) (hne : q ≠ item) :
    (h.addTopping item t).read q = h.read q :=
  Heap.read_write_ne h item q _ hne

theorem Heap.addToppings_next (h : Heap) (item : Ptr) (ts : List Topping) :
    (h.addToppings item ts).next = h.next := by
  induction ts generalizing h with
  | nil => rfl
  | cons t ts ih =>
    have e := ih (h.addTopping item t)
    simp only [Heap.addToppings, List.foldl_cons] at e ⊢
    rw [e, Heap.addTopping_next]

theorem Heap.read_addToppings_same (h : Heap) (item : Ptr) (ts : List Topping) :
    (h.addToppings item ts).read item = (h.read item).addToppings ts := by
  induction ts generalizing h with
  | nil => rfl
  | cons t ts ih =>
    have e := ih (h.addTopping item t)
    simp only [Heap.addToppings, MenuItem.addToppings, List.foldl_cons] at e ⊢
    rw [e, Heap.read_addTopping_same]

theorem Heap.read_addToppings_ne (h : Heap) (item q : Ptr) (ts : List Topping) (hne : q ≠ item) :
    (h.addToppings item ts).read q = h.read q := by
  induction ts generalizing h with
  | nil => rfl
  | cons t ts ih =>
    have e := ih (h.addTopping item t)
    simp only [Heap.addToppings, List.foldl_cons] at e ⊢
    rw [e, Heap.read_addTopping_ne h item q t hne]

/-! ### Orders and the order list -/

theorem Order.addItem_id (o : Order) (h : Heap) (item : Option Ptr) :
    (o.addItem h item).id = o.id := by
  cases item <;> rfl

theorem Order.removeItem_id (o : Order) (h : Heap) (index : Int) :
    (o.removeItem h index).1.id = o.id := by
  unfold Order.removeItem
  split
  · split <;> rfl
  · rfl

/-- The item loop never touches the id of the order being built. -/
theorem Pizzeria.itemLoop_id (menu : Menu) (rs : List Round) :
    ∀ (h : Heap) (o : Order), (Pizzeria.itemLoop menu h o rs).2.1.id = o.id := by
  induction rs with
  | nil => intro h o; rfl
  | cons r rest ih =>
    intro h o
    unfold Pizzeria.itemLoop
    split
    · rfl
    · split
      · simp only []
        rw [ih, Order.removeItem_id]
      · split
        · simp only []
          rw [ih, Order.addItem_id]
        · simp only []
          rw [ih]

/-- A scan that finds no order with the id falls through. -/
theorem Pizzeria.scan_eq_none (id : Int) (s : OrderStatus) (l : List Order)
    (hno : ∀ o ∈ l, o.getId ≠ id) : Pizzeria.scan id s l = none := by
  induction l with
  | nil => rfl
  | cons o rest ih =>
    have ho : o.getId ≠ id := hno o (List.mem_cons_self o rest)
    have hr : ∀ x ∈ rest, x.getId ≠ id := fun x hx => hno x (List.mem_cons_of_mem o hx)
    simp only [Pizzeria.scan, if_neg ho, ih hr, Option.map_none']

/-- A successful scan keeps the length of the list and the id in every position. -/
theorem Pizzeria.scan_map_getId (id : Int) (s : OrderStatus) (l l2 : List Order)
    (hs : Pizzeria.scan id s l = some l2) : l2.map Order.getId = l.map Order.getId := by
  induction l generalizing l2 with
  | nil => simp [Pizzeria.scan] at hs
  | cons o rest ih =>
    unfold Pizzeria.scan at hs
    split at hs
    · cases hs
      rfl
    · cases hrest : Pizzeria.scan id s rest with
      | none => rw [hrest] at hs; simp at hs
      | some l3 =>
        rw [hrest] at hs
        simp only [Option.map_some'] at hs
        cases hs
        simp only [List.map_cons, ih l3 hrest]

theorem Pizzeria.scan_length (id : Int) (s : OrderStatus) (l l2 : List Order)
    (hs : Pizzeria.scan id s l = some l2) : l2.length = l.length := by
  have e := congrArg List.length (Pizzeria.scan_map_getId id s l l2 hs)
  simpa using e

/-- Replacing the order list by one with the same ids keeps the ids sequential. -/
theorem Pizzeria.IdsSequential_of_same_ids (p : Pizzeria) (l : List Order)
    (hp : p.IdsSequential) (hm : l.map Order.getId = p.orders.map Order.getId) :
    Pizzeria.IdsSequential { p with orders := l } := by
  have hlen : l.length = p.orders.length := by
    have e := congrArg List.length hm
    simpa using e
  unfold Pizzeria.IdsSequential at hp ⊢
  simp only []
  rw [hm, hlen]
  exact hp

/-- One pass of the main loop keeps the ids sequential; it adds one order when it is a
`takeOrder` pass and none otherwise. -/
theorem Pizzeria.dispatch_ids (p : Pizzeria) (c : Command) (hp : p.IdsSequential) :
    (p.dispatch c).1.IdsSequential
    ∧ (p.dispatch c).1.orders.length = p.orders.length + Command.countTakeOrder [c] := by
  cases c with
  | takeOrder input =>
    have hid : ((Pizzeria.itemLoop p.menu p.heap
        (Order.new p.nextOrderId input.name { val := input.typeInput }
          (if ({ val := input.typeInput } : OrderType) = OrderType.DELIVERY
            then input.address else "")) input.rounds).2.1.calculateTotal
        (Pizzeria.itemLoop p.menu p.heap
        (Order.new p.nextOrderId input.name { val := input.typeInput }
          (if ({ val := input.typeInput } : OrderType) = OrderType.DELIVERY
            then input.address else "")) input.rounds).1).getId = p.nextOrderId := by
      simp only [Order.getId, Order.calculateTotal]
      rw [Pizzeria.itemLoop_id]
      rfl
    constructor
    · unfold Pizzeria.IdsSequential at hp ⊢
      simp only [Pizzeria.dispatch, Pizzeria.takeOrder, List.map_append, List.map_cons,
        List.map_nil, List.length_append, List.length_cons, List.length_nil]
      rw [hid, hp.1, hp.2]
      constructor
      · rw [List.range_succ, List.map_append]
        simp
      · push_cast
        ring
    · simp [Pizzeria.dispatch, Pizzeria.takeOrder, Command.countTakeOrder]
  | updateOrderStatus id statusInput =>
    simp only [Pizzeria.dispatch, Pizzeria.updateOrderStatus, Command.countTakeOrder]
    cases hs : Pizzeria.scan id { val := statusInput } p.orders with
    | none => exact ⟨hp, rfl⟩
    | some l =>
      exact ⟨Pizzeria.IdsSequential_of_same_ids p l hp (Pizzeria.scan_map_getId _ _ _ _ hs),
        Pizzeria.scan_length _ _ _ _ hs⟩
  | showAllOrders => exact ⟨hp, rfl⟩
  | addMenuItem type name price => exact ⟨hp, rfl⟩
  | cancelOrder id =>
    simp only [Pizzeria.dispatch, Pizzeria.cancelOrder, Command.countTakeOrder]
    cases hs : Pizzeria.scan id OrderStatus.CANCELLED p.orders with
    | none => exact ⟨hp, rfl⟩
    | some l =>
      exact ⟨Pizzeria.IdsSequential_of_same_ids p l hp (Pizzeria.scan_map_getId _ _ _ _ hs),
        Pizzeria.scan_length _ _ _ _ hs⟩
  | invalidChoice choice => exact ⟨hp, rfl⟩

theorem Command.countTakeOrder_cons (c : Command) (cs : List Command) :
    Command.countTakeOrder (c :: cs)
      = Command.countTakeOrder [c] + Command.countTakeOrder cs := by
  cases c <;> simp [Command.countTakeOrder, Nat.add_comm]

/-- A run keeps the ids sequential and adds one order per `takeOrder` pass. -/
theorem Pizzeria.run_ids (cs : List Command) :
    ∀ p : Pizzeria, p.IdsSequential →
      (p.run cs).IdsSequential
      ∧ (p.run cs).orders.length = p.orders.length + Command.countTakeOrder cs := by
  induction cs with
  | nil => intro p hp; exact ⟨hp, rfl⟩
  | cons c rest ih =>
    intro p hp
    have h1 := Pizzeria.dispatch_ids p c hp
    have h2 := ih (p.dispatch c).1 h1.1
    have e : p.run (c :: rest) = (p.dispatch c).1.run rest := rfl
    rw [e, Command.countTakeOrder_cons]
    refine ⟨h2.1, ?_⟩
    rw [h2.2, h1.2, Nat.add_assoc]

/-! ### The seeded pizzeria -/

theorem seeded_menu : seeded.menu = { items := [0, 1, 2, 3] } := rfl

theorem seeded_next : seeded.heap.next = 4 := rfl

theorem seeded_owns : seeded.heap.Owns seeded.menu.items := by
  intro p hp
  rw [seeded_menu] at hp
  rw [seeded_next]
  simp only [List.mem_cons, List.mem_singleton, List.not_mem_nil, or_false] at hp
  rcases hp with rfl | rfl | rfl | rfl <;> decide

/-! ### The catalog -/

/-- The entry pushed by `addNewItem` is what `getItemCopy` returns at the old size. -/
theorem Menu.getItemCopy_pushed (items : List Ptr) (h : Heap) (m : MenuItem) :
    ∃ c, (Menu.getItemCopy { items := items ++ [(h.alloc m).2] } (h.alloc m).1
            (items.length : Int)).2 = some c
      ∧ (Menu.getItemCopy { items := items ++ [(h.alloc m).2] } (h.alloc m).1
            (items.length : Int)).1.read c = m := by
  have hi : 0 ≤ (items.length : Int)
      ∧ (items.length : Int) < ((items ++ [(h.alloc m).2]).length : Int) := by
    constructor
    · omega
    · simp
  have hget : (items ++ [(h.alloc m).2])[(items.length : Int).toNat]? = some (h.alloc m).2 := by
    simp
  have hres : Menu.getItemCopy { items := items ++ [(h.alloc m).2] } (h.alloc m).1
      (items.length : Int)
      = (((h.alloc m).1.clone (h.alloc m).2).1, some ((h.alloc m).1.clone (h.alloc m).2).2) := by
    simp only [Menu.getItemCopy, if_pos hi, hget]
  refine ⟨((h.alloc m).1.clone (h.alloc m).2).2, ?_, ?_⟩
  · rw [hres]
  · rw [hres]
    have hq : ((h.alloc m).1.clone (h.alloc m).2).2 = (h.alloc m).1.next := rfl
    simp only []
    rw [hq]
    simp only [Heap.clone]
    rw [Heap.read_alloc_new, MenuItem.clone_eq, Heap.alloc_snd, Heap.read_alloc_new]

/-! ### The status scans -/

/-- A scan over a list that holds the id rewrites the first order with the id and no other. -/
theorem Pizzeria.scan_of_mem (id : Int) (s : OrderStatus) (l : List Order)
    (hex : ∃ o ∈ l, o.getId = id) :
    ∃ pre o post, l = pre ++ o :: post ∧ (∀ x ∈ pre, x.getId ≠ id) ∧ o.getId = id
      ∧ Pizzeria.scan id s l = some (pre ++ o.updateStatus s :: post) := by
  induction l with
  | nil =>
    obtain ⟨o, ho, -⟩ := hex
    cases ho
  | cons a rest ih =>
    by_cases ha : a.getId = id
    · refine ⟨[], a, rest, rfl, ?_, ha, ?_⟩
      · intro x hx
        cases hx
      · simp only [Pizzeria.scan, if_pos ha, List.nil_append]
    · have hex2 : ∃ o ∈ rest, o.getId = id := by
        obtain ⟨o, ho, hid⟩ := hex
        rcases List.mem_cons.mp ho with rfl | hmem
        · exact absurd hid ha
        · exact ⟨o, hmem, hid⟩
      obtain ⟨pre, o, post, hsplit, hpre, hid, hscan⟩ := ih hex2
      refine ⟨a :: pre, o, post, ?_, ?_, hid, ?_⟩
      · rw [hsplit]
        rfl
      · intro x hx
        rcases List.mem_cons.mp hx with rfl | hmem
        · exact ha
        · exact hpre x hmem
      · simp only [Pizzeria.scan, if_neg ha, hscan, Option.map_some', List.cons_append]

/-! ### The members the item loop leaves alone -/

theorem Order.addItem_fields (o : Order) (h : Heap) (item : Option Ptr) :
    ∃ items total, o.addItem h item = { o with items := items, total := total } := by
  cases item with
  | none => exact ⟨o.items, o.total, rfl⟩
  | some q => exact ⟨o.items ++ [q], o.total + h.getPrice q, rfl⟩

theorem Order.removeItem_fields (o : Order) (h : Heap) (index : Int) :
    ∃ items total, (o.removeItem h index).1 = { o with items := items, total := total } := by
  unfold Order.removeItem
  split
  · split
    · exact ⟨_, _, rfl⟩
    · exact ⟨o.items, o.total, rfl⟩
  · exact ⟨o.items, o.total, rfl⟩

/-- The item loop changes nothing of the order being built but its items and its total. -/
theorem Pizzeria.itemLoop_fields (menu : Menu) (rs : List Round) :
    ∀ (h : Heap) (o : Order), ∃ items total,
      (Pizzeria.itemLoop menu h o rs).2.1 = { o with items := items, total := total } := by
  induction rs with
  | nil => intro h o; exact ⟨o.items, o.total, rfl⟩
  | cons r rest ih =>
    intro h o
    unfold Pizzeria.itemLoop
    split
    · exact ⟨o.items, o.total, rfl⟩
    · split
      · obtain ⟨i1, t1, e1⟩ := Order.removeItem_fields o h r.removeIndex
        obtain ⟨i2, t2, e2⟩ := ih h (o.removeItem h r.removeIndex).1
        refine ⟨i2, t2, ?_⟩
        simp only []
        rw [e2, e1]
      · split
        · rename_i h1 item heq
          obtain ⟨i1, t1, e1⟩ := Order.addItem_fields o
            (Pizzeria.toppingLoop h1 item r.toppingIndices).1 (some item)
          obtain ⟨i2, t2, e2⟩ := ih (Pizzeria.toppingLoop h1 item r.toppingIndices).1
            (o.addItem (Pizzeria.toppingLoop h1 item r.toppingIndices).1 (some item))
          refine ⟨i2, t2, ?_⟩
          simp only []
          rw [e2, e1]
        · rename_i h1 heq
          obtain ⟨i2, t2, e2⟩ := ih h1 o
          exact ⟨i2, t2, e2⟩

/-! ### The passes of the item loop -/

/-- The topping loop adds the chosen toppings to the item, in order, and does nothing else to
the store. -/
theorem Pizzeria.toppingLoop_heap (item : Ptr) (tis : List Int) :
    ∀ h : Heap, (Pizzeria.toppingLoop h item tis).1
      = h.addToppings item (Pizzeria.chosenToppings tis) := by
  induction tis with
  | nil => intro h; rfl
  | cons ti rest ih =>
    intro h
    unfold Pizzeria.toppingLoop
    by_cases hr : 0 ≤ ti ∧ ti < (Pizzeria.predefinedToppings.length : Int)
    · rw [if_pos hr]
      cases hget : Pizzeria.predefinedToppings[ti.toNat]? with
      | none =>
        have hc : Pizzeria.chosenToppings (ti :: rest) = Pizzeria.chosenToppings rest := by
          simp [Pizzeria.chosenToppings, Pizzeria.toppingAt, if_pos hr, hget]
        simp only []
        rw [ih, hc]
      | some t =>
        have hc : Pizzeria.chosenToppings (ti :: rest) = t :: Pizzeria.chosenToppings rest := by
          simp [Pizzeria.chosenToppings, Pizzeria.toppingAt, if_pos hr, hget]
        simp only []
        rw [ih, hc]
        rfl
    · rw [if_neg hr]
      have hc : Pizzeria.chosenToppings (ti :: rest) = Pizzeria.chosenToppings rest := by
        simp [Pizzeria.chosenToppings, Pizzeria.toppingAt, if_neg hr]
      simp only []
      rw [ih, hc]

/-- The two outcomes of `getItemCopy`. -/
theorem Menu.getItemCopy_cases (menu : Menu) (h : Heap) (i : Int) :
    (¬ (0 ≤ i ∧ i < (menu.items.length : Int)) ∧ menu.getItemCopy h i = (h, none))
    ∨ ((0 ≤ i ∧ i < (menu.items.length : Int))
        ∧ ∃ p, menu.items[i.toNat]? = some p
          ∧ menu.getItemCopy h i = ((h.clone p).1, some h.next)) := by
  by_cases hi : 0 ≤ i ∧ i < (menu.items.length : Int)
  · right
    have hlt : i.toNat < menu.items.length := by omega
    have hget : menu.items[i.toNat]? = some (menu.items[i.toNat]) :=
      List.getElem?_eq_getElem hlt
    refine ⟨hi, menu.items[i.toNat], hget, ?_⟩
    simp only [Menu.getItemCopy, if_pos hi, hget]
    rfl
  · left
    refine ⟨hi, ?_⟩
    simp only [Menu.getItemCopy, if_neg hi]

/-- A pass of the item loop that is not the final `-1` is one `RoundStep`, after which the loop
goes on with the remaining passes. -/
theorem Pizzeria.itemLoop_cons (menu : Menu) (h : Heap) (o : Order) (r : Round)
    (rest : List Round) (hne : r.index ≠ -1) :
    ∃ h1 o1 out1, Pizzeria.RoundStep menu h o r h1 o1
      ∧ Pizzeria.itemLoop menu h o (r :: rest)
          = ((Pizzeria.itemLoop menu h1 o1 rest).1, (Pizzeria.itemLoop menu h1 o1 rest).2.1,
              out1 ++ (Pizzeria.itemLoop menu h1 o1 rest).2.2) := by
  by_cases h2 : r.index = -2
  · refine ⟨h, (o.removeItem h r.removeIndex).1, (o.removeItem h r.removeIndex).2,
      Or.inl ⟨h2, rfl, rfl⟩, ?_⟩
    simp only [Pizzeria.itemLoop, if_neg hne, if_pos h2]
  · rcases Menu.getItemCopy_cases menu h r.index with ⟨hout, hres⟩ | ⟨hin, p, hget, hres⟩
    · refine ⟨h, o, ["Invalid item.\n"], Or.inr (Or.inl ⟨h2, hout, rfl, rfl⟩), ?_⟩
      simp only [Pizzeria.itemLoop, if_neg hne, if_neg h2, hres]
      rfl
    · refine ⟨(h.clone p).1.addToppings h.next (Pizzeria.chosenToppings r.toppingIndices),
        o.addItem ((h.clone p).1.addToppings h.next (Pizzeria.chosenToppings r.toppingIndices))
          (some h.next),
        (Pizzeria.toppingLoop (h.clone p).1 h.next r.toppingIndices).2,
        Or.inr (Or.inr ⟨h2, hin, p, hget, rfl, rfl⟩), ?_⟩
      simp only [Pizzeria.itemLoop, if_neg hne, if_neg h2, hres, Pizzeria.toppingLoop_heap]

/-- A property of the store and the order that every `RoundStep` keeps holds when the item
loop ends. -/
theorem Pizzeria.itemLoop_induct (menu : Menu) (P : Heap → Order → Prop)
    (hstep : ∀ h o r h1 o1, P h o → Pizzeria.RoundStep menu h o r h1 o1 → P h1 o1)
    (rs : List Round) :
    ∀ (h : Heap) (o : Order), P h o →
      P (Pizzeria.itemLoop menu h o rs).1 (Pizzeria.itemLoop menu h o rs).2.1 := by
  induction rs with
  | nil => intro h o hP; exact hP
  | cons r rest ih =>
    intro h o hP
    by_cases hne : r.index = -1
    · have e : Pizzeria.itemLoop menu h o (r :: rest) = (h, o, []) := by
        simp only [Pizzeria.itemLoop, if_pos hne]
      rw [e]
      exact hP
    · obtain ⟨h1, o1, out1, hs, e⟩ := Pizzeria.itemLoop_cons menu h o r rest hne
      rw [e]
      exact ih h1 o1 (hstep h o r h1 o1 hP hs)

/-! ### The catalog over a run -/

/-- A `RoundStep` hands out addresses but leaves every object that was live as it was. -/
theorem Pizzeria.RoundStep_frame (menu : Menu) (h : Heap) (o : Order) (r : Round) (h1 : Heap)
    (o1 : Order) (hs : Pizzeria.RoundStep menu h o r h1 o1) :
    h.next ≤ h1.next ∧ ∀ q, q < h.next → h1.read q = h.read q := by
  rcases hs with ⟨-, e, -⟩ | ⟨-, -, e, -⟩ | ⟨-, -, p, -, e, -⟩
  · subst e
    exact ⟨Nat.le_refl _, fun _ _ => rfl⟩
  · subst e
    exact ⟨Nat.le_refl _, fun _ _ => rfl⟩
  · subst e
    constructor
    · rw [Heap.addToppings_next]
      exact Nat.le_succ _
    · intro q hq
      rw [Heap.read_addToppings_ne _ _ q _ (Nat.ne_of_lt hq)]
      exact Heap.read_alloc_old h _ q hq

/-- The item loop hands out addresses but leaves every object that was live as it was. -/
theorem Pizzeria.itemLoop_frame (menu : Menu) (rs : List Round) (h : Heap) (o : Order) :
    h.next ≤ (Pizzeria.itemLoop menu h o rs).1.next
    ∧ ∀ q, q < h.next → (Pizzeria.itemLoop menu h o rs).1.read q = h.read q := by
  refine Pizzeria.itemLoop_induct menu
    (fun h1 _ => h.next ≤ h1.next ∧ ∀ q, q < h.next → h1.read q = h.read q) ?_ rs h o
    ⟨Nat.le_refl _, fun _ _ => rfl⟩
  intro ha oa r hb ob hP hs
  obtain ⟨hle, hread⟩ := Pizzeria.RoundStep_frame menu ha oa r hb ob hs
  refine ⟨Nat.le_trans hP.1 hle, ?_⟩
  intro q hq
  rw [hread q (Nat.lt_of_lt_of_le hq hP.1)]
  exact hP.2 q hq

/-- The two outcomes of `addNewItem`. -/
theorem Menu.addNewItem_cases (menu : Menu) (h : Heap) (type : Int) (name : String)
    (price : ℚ) :
    (¬ (type = 0 ∨ type = 1 ∨ type = 2)
      ∧ menu.addNewItem h type name price = (h, menu, ["Invalid type.\n"]))
    ∨ ((type = 0 ∨ type = 1 ∨ type = 2)
      ∧ ∃ m : MenuItem, m.name = name ∧ m.price = price ∧ m.toppings = []
        ∧ menu.addNewItem h type name price
            = ((h.alloc m).1, { items := menu.items ++ [h.next] }, [])) := by
  by_cases h0 : type = 0
  · right
    exact ⟨Or.inl h0, Pizza.mk name price, rfl, rfl, rfl, by simp [Menu.addNewItem, h0]; rfl⟩
  · by_cases h1 : type = 1
    · right
      exact ⟨Or.inr (Or.inl h1), Drink.mk name price, rfl, rfl, rfl,
        by simp [Menu.addNewItem, h1]; rfl⟩
    · by_cases h2 : type = 2
      · right
        exact ⟨Or.inr (Or.inr h2), SideDish.mk name price, rfl, rfl, rfl,
          by simp [Menu.addNewItem, h2]; rfl⟩
      · left
        refine ⟨?_, ?_⟩
        · rintro (e | e | e)
          · exact h0 e
          · exact h1 e
          · exact h2 e
        · simp only [Menu.addNewItem, if_neg h0, if_neg h1, if_neg h2]

/-- The status scans change neither the store nor the menu. -/
theorem Pizzeria.updateOrderStatus_heap_menu (p : Pizzeria) (id statusInput : Int) :
    (p.updateOrderStatus id statusInput).1.heap = p.heap
    ∧ (p.updateOrderStatus id statusInput).1.menu = p.menu := by
  unfold Pizzeria.updateOrderStatus
  split <;> exact ⟨rfl, rfl⟩

theorem Pizzeria.cancelOrder_heap_menu (p : Pizzeria) (id : Int) :
    (p.cancelOrder id).1.heap = p.heap ∧ (p.cancelOrder id).1.menu = p.menu := by
  unfold Pizzeria.cancelOrder
  split <;> exact ⟨rfl, rfl⟩

/-- One pass of the main loop: the catalog keeps its entries, in place and unchanged, and gains
at most one entry at the end, none unless the pass is `addMenuItem`. -/
theorem Pizzeria.dispatch_catalog (p : Pizzeria) (c : Command) :
    p.heap.next ≤ (p.dispatch c).1.heap.next
    ∧ (∀ q, q < p.heap.next → (p.dispatch c).1.heap.read q = p.heap.read q)
    ∧ (∃ extra, (p.dispatch c).1.menu.items = p.menu.items ++ extra ∧ extra.length ≤ 1
        ∧ ∀ q ∈ extra, q < (p.dispatch c).1.heap.next
            ∧ ((p.dispatch c).1.heap.read q).toppings = [])
    ∧ ((∀ t n pr, c ≠ Command.addMenuItem t n pr) → (p.dispatch c).1.menu = p.menu) := by
  have same : ∀ q : Pizzeria, q.heap = p.heap → q.menu = p.menu →
      p.heap.next ≤ q.heap.next
      ∧ (∀ x, x < p.heap.next → q.heap.read x = p.heap.read x)
      ∧ (∃ extra, q.menu.items = p.menu.items ++ extra ∧ extra.length ≤ 1
          ∧ ∀ x ∈ extra, x < q.heap.next ∧ (q.heap.read x).toppings = [])
      ∧ q.menu = p.menu := by
    intro q hh hm
    rw [hh, hm]
    exact ⟨Nat.le_refl _, fun _ _ => rfl, ⟨[], by simp, by simp, by simp⟩, rfl⟩
  cases c with
  | takeOrder input =>
    have hf := Pizzeria.itemLoop_frame p.menu input.rounds p.heap
      (Order.new p.nextOrderId input.name { val := input.typeInput }
        (if ({ val := input.typeInput } : OrderType) = OrderType.DELIVERY
          then input.address else ""))
    exact ⟨hf.1, hf.2, ⟨[], by simp [Pizzeria.dispatch, Pizzeria.takeOrder], by simp, by simp⟩,
      fun _ => rfl⟩
  | updateOrderStatus id statusInput =>
    obtain ⟨a, b, c, d⟩ := same (p.updateOrderStatus id statusInput).1
      (Pizzeria.updateOrderStatus_heap_menu p id statusInput).1
      (Pizzeria.updateOrderStatus_heap_menu p id statusInput).2
    exact ⟨a, b, c, fun _ => d⟩
  | showAllOrders =>
    obtain ⟨a, b, c, d⟩ := same p rfl rfl
    exact ⟨a, b, c, fun _ => d⟩
  | addMenuItem type name price =>
    rcases Menu.addNewItem_cases p.menu p.heap type name price with
      ⟨-, hres⟩ | ⟨-, m, -, -, htop, hres⟩
    · have e : (p.dispatch (Command.addMenuItem type name price)).1 = p := by
        simp only [Pizzeria.dispatch, Pizzeria.addMenuItem, hres]
      rw [e]
      obtain ⟨a, b, c, d⟩ := same p rfl rfl
      exact ⟨a, b, c, fun _ => d⟩
    · have e : (p.dispatch (Command.addMenuItem type name price)).1
          = { p with heap := (p.heap.alloc m).1,
                     menu := { items := p.menu.items ++ [p.heap.next] } } := by
        simp only [Pizzeria.dispatch, Pizzeria.addMenuItem, hres]
      rw [e]
      refine ⟨Nat.le_succ _, fun q hq => Heap.read_alloc_old p.heap m q hq,
        ⟨[p.heap.next], rfl, Nat.le_refl _, ?_⟩, ?_⟩
      · intro q hq
        rw [List.mem_singleton] at hq
        subst hq
        refine ⟨Nat.lt_succ_self _, ?_⟩
        simp only []
        rw [Heap.read_alloc_new]
        exact htop
      · intro hno
        exact absurd rfl (hno type name price)
  | cancelOrder id =>
    obtain ⟨a, b, c, d⟩ := same (p.cancelOrder id).1
      (Pizzeria.cancelOrder_heap_menu p id).1 (Pizzeria.cancelOrder_heap_menu p id).2
    exact ⟨a, b, c, fun _ => d⟩
  | invalidChoice choice =>
    obtain ⟨a, b, c, d⟩ := same p rfl rfl
    exact ⟨a, b, c, fun _ => d⟩

/-- A run of the main loop: the catalog keeps its entries, in place and unchanged, and can only
grow at the end, and only by `addMenuItem` passes. -/
theorem Pizzeria.run_catalog (cs : List Command) :
    ∀ p : Pizzeria,
      p.heap.next ≤ (p.run cs).heap.next
      ∧ (∀ q, q < p.heap.next → (p.run cs).heap.read q = p.heap.read q)
      ∧ (∃ extra, (p.run cs).menu.items = p.menu.items ++ extra)
      ∧ ((∀ c ∈ cs, ∀ t n pr, c ≠ Command.addMenuItem t n pr) → (p.run cs).menu = p.menu) := by
  induction cs with
  | nil =>
    intro p
    exact ⟨Nat.le_refl _, fun _ _ => rfl, ⟨[], by simp [Pizzeria.run]⟩, fun _ => rfl⟩
  | cons c rest ih =>
    intro p
    have e : p.run (c :: rest) = (p.dispatch c).1.run rest := rfl
    obtain ⟨a1, b1, ⟨x1, c1, -, -⟩, d1⟩ := Pizzeria.dispatch_catalog p c
    obtain ⟨a2, b2, ⟨x2, c2⟩, d2⟩ := ih (p.dispatch c).1
    rw [e]
    refine ⟨Nat.le_trans a1 a2, ?_, ⟨x1 ++ x2, ?_⟩, ?_⟩
    · intro q hq
      rw [b2 q (Nat.lt_of_lt_of_le hq a1)]
      exact b1 q hq
    · rw [c2, c1, List.append_assoc]
    · intro hno
      rw [d2 (fun x hx => hno x (List.mem_cons_of_mem c hx))]
      exact d1 (hno c (List.mem_cons_self c rest))

/-- One pass of the main loop keeps every catalog entry live and free of toppings. -/
theorem Pizzeria.dispatch_plain (p : Pizzeria) (c : Command) (hp : p.CatalogPlain) :
    (p.dispatch c).1.CatalogPlain := by
  obtain ⟨a1, b1, ⟨x1, c1, -, e1⟩, -⟩ := Pizzeria.dispatch_catalog p c
  intro q hq
  rw [c1] at hq
  rcases List.mem_append.mp hq with hold | hnew
  · obtain ⟨hlt, htop⟩ := hp q hold
    refine ⟨Nat.lt_of_lt_of_le hlt a1, ?_⟩
    rw [b1 q hlt]
    exact htop
  · exact e1 q hnew

theorem Pizzeria.run_plain (cs : List Command) :
    ∀ p : Pizzeria, p.CatalogPlain → (p.run cs).CatalogPlain := by
  induction cs with
  | nil => intro p hp; exact hp
  | cons c rest ih =>
    intro p hp
    exact ih (p.dispatch c).1 (Pizzeria.dispatch_plain p c hp)

/-- The constructor of `Menu` places its four entries at the next four addresses. -/
theorem Menu.new_spec (h : Heap) :
    (Menu.new h).2.items = [h.next, h.next + 1, h.next + 2, h.next + 3]
    ∧ (Menu.new h).1.next = h.next + 4
    ∧ (Menu.new h).1.read h.next = Pizza.mk "Margherita" 5.5
    ∧ (Menu.new h).1.read (h.next + 1) = Pizza.mk "Pepperoni" 6.5
    ∧ (Menu.new h).1.read (h.next + 2) = Drink.mk "Coke" 1.5
    ∧ (Menu.new h).1.read (h.next + 3) = SideDish.mk "Garlic Bread" 2.0 := by
  have n1 : ∀ a : Nat, a ≠ a + 1 := fun a => by omega
  have n2 : ∀ a : Nat, a ≠ a + 2 := fun a => by omega
  have n3 : ∀ a : Nat, a ≠ a + 3 := fun a => by omega
  have n4 : ∀ a : Nat, a + 1 ≠ a + 2 := fun a => by omega
  have n5 : ∀ a : Nat, a + 1 ≠ a + 3 := fun a => by omega
  have n6 : ∀ a : Nat, a + 2 ≠ a + 3 := fun a => by omega
  refine ⟨rfl, rfl, ?_, ?_, ?_, ?_⟩
  · simp [Menu.new, Heap.alloc, Heap.read, Function.update, n1 h.next, n2 h.next, n3 h.next]
  · simp [Menu.new, Heap.alloc, Heap.read, Function.update, n4 h.next, n5 h.next]
  · simp [Menu.new, Heap.alloc, Heap.read, Function.update, n6 h.next]
  · simp [Menu.new, Heap.alloc, Heap.read, Function.update]

/-- In a freshly constructed pizzeria every catalog entry is live and free of toppings. -/
theorem Pizzeria.new_plain (h : Heap) : (Pizzeria.new h).CatalogPlain := by
  obtain ⟨hi, hn, r0, r1, r2, r3⟩ := Menu.new_spec h
  have l0 : ∀ a : Nat, a < a + 4 := fun a => by omega
  have l1 : ∀ a : Nat, a + 1 < a + 4 := fun a => by omega
  have l2 : ∀ a : Nat, a + 2 < a + 4 := fun a => by omega
  have l3 : ∀ a : Nat, a + 3 < a + 4 := fun a => by omega
  intro q hq
  have hq2 : q ∈ (Menu.new h).2.items := hq
  rw [hi] at hq2
  have hnext : (Pizzeria.new h).heap.next = h.next + 4 := hn
  have hread : ∀ x, (Pizzeria.new h).heap.read x = (Menu.new h).1.read x := fun _ => rfl
  simp only [List.mem_cons, List.mem_singleton, List.not_mem_nil, or_false] at hq2
  rw [hnext, hread]
  rcases hq2 with rfl | rfl | rfl | rfl
  · exact ⟨l0 _, by rw [r0]; rfl⟩
  · exact ⟨l1 _, by rw [r1]; rfl⟩
  · exact ⟨l2 _, by rw [r2]; rfl⟩
  · exact ⟨l3 _, by rw [r3]; rfl⟩

/-- Adding toppings raises the effective price by the sum of their prices. -/
theorem MenuItem.getPrice_addToppings (m : MenuItem) (ts : List Topping) :
    (m.addToppings ts).getPrice = m.getPrice + (ts.map Topping.getPrice).sum := by
  rw [MenuItem.getPrice_eq, MenuItem.addToppings_eq, MenuItem.getPrice_eq]
  simp only [List.map_append, List.sum_append, add_assoc]

/-- A sum of prices none of which is negative is not negative. -/
theorem sum_prices_nonneg {α : Type} (f : α → ℚ) (l : List α) (hl : ∀ x ∈ l, 0 ≤ f x) :
    0 ≤ (l.map f).sum := by
  induction l with
  | nil => simp
  | cons a rest ih =>
    have ha : 0 ≤ f a := hl a (List.mem_cons_self a rest)
    have hr : 0 ≤ (rest.map f).sum := ih (fun x hx => hl x (List.mem_cons_of_mem a hx))
    simp only [List.map_cons, List.sum_cons]
    exact add_nonneg ha hr

/-- No predefined topping has a negative price. -/
theorem Pizzeria.predefinedToppings_nonneg :
    ∀ t ∈ Pizzeria.predefinedToppings, 0 ≤ t.getPrice := by
  intro t ht
  simp only [Pizzeria.predefinedToppings, List.mem_cons, List.mem_singleton,
    List.not_mem_nil, or_false] at ht
  rcases ht with rfl | rfl | rfl | rfl | rfl | rfl <;> simp [Topping.getPrice] <;> norm_num

/-- The chosen toppings are predefined toppings. -/
theorem Pizzeria.chosenToppings_subset (tis : List Int) :
    ∀ t ∈ Pizzeria.chosenToppings tis, t ∈ Pizzeria.predefinedToppings := by
  intro t ht
  simp only [Pizzeria.chosenToppings, List.mem_filterMap] at ht
  obtain ⟨ti, -, hti⟩ := ht
  unfold Pizzeria.toppingAt at hti
  split at hti
  · exact List.getElem?_mem hti
  · cases hti

/-! ### The running total -/

/-- Deleting one position lowers the sum of the prices by the price at that position. -/
theorem sum_map_eraseIdx {α : Type} (f : α → ℚ) (l : List α) :
    ∀ (i : Nat) (a : α), l[i]? = some a →
      ((l.eraseIdx i).map f).sum = (l.map f).sum - f a := by
  induction l with
  | nil => intro i a ha; simp at ha
  | cons x rest ih =>
    intro i a ha
    cases i with
    | zero =>
      simp only [List.getElem?_cons_zero, Option.some.injEq] at ha
      subst ha
      simp
    | succ j =>
      simp only [List.getElem?_cons_succ] at ha
      simp only [List.eraseIdx_cons_succ, List.map_cons, List.sum_cons, ih j a ha]
      ring

/-- The relation between the running total and the items: the total is the sum of the
effective prices of the items held.  `addItem` keeps it. -/
theorem Order.addItem_total (o : Order) (h : Heap) (item : Option Ptr)
    (ho : o.total = (o.items.map h.getPrice).sum) :
    (o.addItem h item).total = ((o.addItem h item).items.map h.getPrice).sum := by
  cases item with
  | none => exact ho
  | some q =>
    simp only [Order.addItem, List.map_append, List.sum_append, List.map_cons, List.map_nil,
      List.sum_cons, List.sum_nil, add_zero]
    rw [ho]

/-- `removeItem` keeps the total equal to the sum of the effective prices of the items held. -/
theorem Order.removeItem_total (o : Order) (h : Heap) (index : Int)
    (ho : o.total = (o.items.map h.getPrice).sum) :
    (o.removeItem h index).1.total = ((o.removeItem h index).1.items.map h.getPrice).sum := by
  unfold Order.removeItem
  split
  · split
    · rename_i q hq
      simp only []
      rw [sum_map_eraseIdx h.getPrice o.items index.toNat q hq, ho]
    · exact ho
  · exact ho

/-- Any sequence of `addItem` and `removeItem` calls keeps the total equal to the sum of the
effective prices of the items held. -/
theorem Order.calls_total (h : Heap) (cs : List OrderCall) :
    ∀ o : Order, o.total = (o.items.map h.getPrice).sum →
      (o.calls h cs).total = ((o.calls h cs).items.map h.getPrice).sum := by
  induction cs with
  | nil => intro o ho; exact ho
  | cons c rest ih =>
    intro o ho
    have e : o.calls h (c :: rest) = (Order.call h o c).calls h rest := rfl
    rw [e]
    apply ih
    cases c with
    | addItem item => exact Order.addItem_total o h item ho
    | removeItem index => exact Order.removeItem_total o h index ho

/-- `calculateTotal` gives the sum of the effective prices of the items held. -/
theorem Order.calculateTotal_total (o : Order) (h : Heap) :
    (o.calculateTotal h).total = (o.items.map h.getPrice).sum := by
  simp only [Order.calculateTotal]
  rw [foldl_add_eq_add_sum h.getPrice, zero_add]

/-! ### Signs of the totals -/

/-- A `RoundStep` keeps the catalog entries and the items of the order live and of non-negative
effective price. -/
theorem Pizzeria.RoundStep_nonneg (menu : Menu) (h : Heap) (o : Order) (r : Round) (h1 : Heap)
    (o1 : Order) (hs : Pizzeria.RoundStep menu h o r h1 o1)
    (hm : h.NonNeg menu.items) (ho : h.NonNeg o.items) :
    h1.NonNeg menu.items ∧ h1.NonNeg o1.items := by
  rcases hs with ⟨-, e1, e2⟩ | ⟨-, -, e1, e2⟩ | ⟨-, -, p, hget, e1, e2⟩
  · subst e1
    subst e2
    refine ⟨hm, ?_⟩
    intro q hq
    apply ho q
    unfold Order.removeItem at hq
    split at hq
    · split at hq
      · exact List.mem_of_mem_eraseIdx hq
      · exact hq
    · exact hq
  · subst e1
    subst e2
    exact ⟨hm, ho⟩
  · have hp : p < h.next ∧ 0 ≤ h.getPrice p := hm p (List.getElem?_mem hget)
    have hnext : h1.next = h.next + 1 := by
      rw [e1, Heap.addToppings_next]
      rfl
    have hold : ∀ q, q < h.next → h1.getPrice q = h.getPrice q := by
      intro q hq
      simp only [Heap.getPrice]
      rw [e1, Heap.read_addToppings_ne _ _ q _ (Nat.ne_of_lt hq)]
      exact congrArg MenuItem.getPrice (Heap.read_alloc_old h _ q hq)
    have hnew : 0 ≤ h1.getPrice h.next := by
      simp only [Heap.getPrice]
      rw [e1, Heap.read_addToppings_same]
      have hc : (h.clone p).1.read h.next = h.read p := by
        simp only [Heap.clone]
        rw [Heap.read_alloc_new, MenuItem.clone_eq]
      rw [hc, MenuItem.getPrice_addToppings]
      exact add_nonneg hp.2 (sum_prices_nonneg Topping.getPrice _ (fun t ht =>
        Pizzeria.predefinedToppings_nonneg t (Pizzeria.chosenToppings_subset _ t ht)))
    have keep : ∀ ps : List Ptr, h.NonNeg ps → h1.NonNeg ps := by
      intro ps hps q hq
      obtain ⟨hlt, hge⟩ := hps q hq
      refine ⟨?_, ?_⟩
      · rw [hnext]
        exact Nat.lt_succ_of_lt hlt
      · rw [hold q hlt]
        exact hge
    refine ⟨keep _ hm, ?_⟩
    intro q hq
    rw [e2] at hq
    simp only [Order.addItem, List.mem_append, List.mem_singleton] at hq
    rcases hq with hq | hq
    · exact keep _ ho q hq
    · subst hq
      exact ⟨by rw [hnext]; exact Nat.lt_succ_self _, hnew⟩

/-- The item loop keeps the catalog entries and the items of the order live and of
non-negative effective price. -/
theorem Pizzeria.itemLoop_nonneg (menu : Menu) (rs : List Round) (h : Heap) (o : Order)
    (hm : h.NonNeg menu.items) (ho : h.NonNeg o.items) :
    (Pizzeria.itemLoop menu h o rs).1.NonNeg menu.items
    ∧ (Pizzeria.itemLoop menu h o rs).1.NonNeg (Pizzeria.itemLoop menu h o rs).2.1.items :=
  Pizzeria.itemLoop_induct menu (fun h1 o1 => h1.NonNeg menu.items ∧ h1.NonNeg o1.items)
    (fun ha oa r hb ob hP hs => Pizzeria.RoundStep_nonneg menu ha oa r hb ob hs hP.1 hP.2)
    rs h o ⟨hm, ho⟩

/-- A successful scan keeps the total in every position. -/
theorem Pizzeria.scan_map_total (id : Int) (s : OrderStatus) (l l2 : List Order)
    (hs : Pizzeria.scan id s l = some l2) : l2.map Order.total = l.map Order.total := by
  induction l generalizing l2 with
  | nil => simp [Pizzeria.scan] at hs
  | cons o rest ih =>
    unfold Pizzeria.scan at hs
    split at hs
    · cases hs
      rfl
    · cases hrest : Pizzeria.scan id s rest with
      | none => rw [hrest] at hs; simp at hs
      | some l3 =>
        rw [hrest] at hs
        simp only [Option.map_some'] at hs
        cases hs
        simp only [List.map_cons, ih l3 hrest]

/-- Lists of orders with the same totals, position by position: if none is negative in one,
none is negative in the other. -/
theorem totals_nonneg_of_map_eq (l l2 : List Order)
    (hm : l2.map Order.total = l.map Order.total) (hl : ∀ o ∈ l, 0 ≤ o.total) :
    ∀ o ∈ l2, 0 ≤ o.total := by
  intro o ho
  have h1 : o.total ∈ l2.map Order.total := List.mem_map_of_mem Order.total ho
  rw [hm] at h1
  obtain ⟨x, hx, hxe⟩ := List.mem_map.mp h1
  rw [← hxe]
  exact hl x hx

/-- One pass of the main loop keeps the totals non-negative, provided the pass does not add a
catalog entry with a negative price. -/
theorem Pizzeria.dispatch_totals (p : Pizzeria) (c : Command) (hp : p.TotalsNonNeg)
    (hc : c.PriceOk) : (p.dispatch c).1.TotalsNonNeg := by
  cases c with
  | takeOrder input =>
    have hnil : p.heap.NonNeg (Order.new p.nextOrderId input.name { val := input.typeInput }
        (if ({ val := input.typeInput } : OrderType) = OrderType.DELIVERY
          then input.address else "")).items := by
      intro q hq
      cases hq
    obtain ⟨hm, ho⟩ := Pizzeria.itemLoop_nonneg p.menu input.rounds p.heap _ hp.1 hnil
    refine ⟨hm, ?_⟩
    intro o hmem
    simp only [Pizzeria.dispatch, Pizzeria.takeOrder, List.mem_append,
      List.mem_singleton] at hmem
    rcases hmem with hold | hnew
    · exact hp.2 o hold
    · rw [hnew, Order.calculateTotal_total]
      exact sum_prices_nonneg _ _ (fun q hq => (ho q hq).2)
  | updateOrderStatus id statusInput =>
    simp only [Pizzeria.dispatch, Pizzeria.updateOrderStatus]
    cases hs : Pizzeria.scan id { val := statusInput } p.orders with
    | none => exact hp
    | some l =>
      exact ⟨hp.1, totals_nonneg_of_map_eq p.orders l
        (Pizzeria.scan_map_total _ _ _ _ hs) hp.2⟩
  | showAllOrders => exact hp
  | addMenuItem type name price =>
    rcases Menu.addNewItem_cases p.menu p.heap type name price with
      ⟨-, hres⟩ | ⟨htype, m, -, hprice, htop, hres⟩
    · have e : (p.dispatch (Command.addMenuItem type name price)).1 = p := by
        simp only [Pizzeria.dispatch, Pizzeria.addMenuItem, hres]
      rw [e]
      exact hp
    · have e : (p.dispatch (Command.addMenuItem type name price)).1
          = { p with heap := (p.heap.alloc m).1,
                     menu := { items := p.menu.items ++ [p.heap.next] } } := by
        simp only [Pizzeria.dispatch, Pizzeria.addMenuItem, hres]
      have hpr : 0 ≤ price := hc htype
      have hm : m.getPrice = price := by
        rw [MenuItem.getPrice_eq, htop, hprice]
        simp
      rw [e]
      refine ⟨?_, hp.2⟩
      intro q hq
      simp only [List.mem_append, List.mem_singleton] at hq
      rcases hq with hq | hq
      · obtain ⟨hlt, hge⟩ := hp.1 q hq
        refine ⟨Nat.lt_succ_of_lt hlt, ?_⟩
        simp only [Heap.getPrice]
        rw [Heap.read_alloc_old p.heap m q hlt]
        exact hge
      · subst hq
        refine ⟨Nat.lt_succ_self _, ?_⟩
        simp only [Heap.getPrice]
        rw [Heap.read_alloc_new, hm]
        exact hpr
  | cancelOrder id =>
    simp only [Pizzeria.dispatch, Pizzeria.cancelOrder]
    cases hs : Pizzeria.scan id OrderStatus.CANCELLED p.orders with
    | none => exact hp
    | some l =>
      exact ⟨hp.1, totals_nonneg_of_map_eq p.orders l
        (Pizzeria.scan_map_total _ _ _ _ hs) hp.2⟩
  | invalidChoice choice => exact hp

theorem Pizzeria.run_totals (cs : List Command) :
    ∀ p : Pizzeria, p.TotalsNonNeg → (∀ c ∈ cs, c.PriceOk) → (p.run cs).TotalsNonNeg := by
  induction cs with
  | nil => intro p hp _; exact hp
  | cons c rest ih =>
    intro p hp hcs
    exact ih (p.dispatch c).1
      (Pizzeria.dispatch_totals p c hp (hcs c (List.mem_cons_self c rest)))
      (fun x hx => hcs x (List.mem_cons_of_mem c hx))

/-- A freshly constructed pizzeria has a catalog of non-negative prices and no order. -/
theorem Pizzeria.new_totals (h : Heap) : (Pizzeria.new h).TotalsNonNeg := by
  obtain ⟨hi, hn, r0, r1, r2, r3⟩ := Menu.new_spec h
  have l0 : ∀ a : Nat, a < a + 4 := fun a => by omega
  have l1 : ∀ a : Nat, a + 1 < a + 4 := fun a => by omega
  have l2 : ∀ a : Nat, a + 2 < a + 4 := fun a => by omega
  have l3 : ∀ a : Nat, a + 3 < a + 4 := fun a => by omega
  refine ⟨?_, fun o ho => by cases ho⟩
  intro q hq
  have hq2 : q ∈ (Menu.new h).2.items := hq
  rw [hi] at hq2
  have hnext : (Pizzeria.new h).heap.next = h.next + 4 := hn
  have hprice : ∀ x, (Pizzeria.new h).heap.getPrice x = ((Menu.new h).1.read x).getPrice :=
    fun _ => rfl
  simp only [List.mem_cons, List.mem_singleton, List.not_mem_nil, or_false] at hq2
  rw [hnext, hprice]
  rcases hq2 with rfl | rfl | rfl | rfl
  · exact ⟨l0 _, by rw [r0]; norm_num [MenuItem.getPrice, Pizza.mk]⟩
  · exact ⟨l1 _, by rw [r1]; norm_num [MenuItem.getPrice, Pizza.mk]⟩
  · exact ⟨l2 _, by rw [r2]; norm_num [MenuItem.getPrice, Drink.mk]⟩
  · exact ⟨l3 _, by rw [r3]; norm_num [MenuItem.getPrice, SideDish.mk]⟩

/-! ### Binary32 rounding -/

/-- The rounding function on the price literals of the source: `0.5f`, `0.25f`, `5.5f`,
`6.5f`, `1.5f` and `2.0f` are exact, and `0.3f`, `0.4f`, `0.6f` are the neighbouring binary32
values. -/
theorem F32.round_literals :
    F32.round 0.5 = 0.5 ∧ F32.round 0.25 = 0.25 ∧ F32.round 5.5 = 5.5 ∧ F32.round 6.5 = 6.5
    ∧ F32.round 1.5 = 1.5 ∧ F32.round 2.0 = 2.0
    ∧ F32.round 0.3 = 5033165 / 16777216
    ∧ F32.round 0.4 = 13421773 / 33554432
    ∧ F32.round 0.6 = 5033165 / 8388608 := by
  refine ⟨by decide!, by decide!, by decide!, by decide!, by decide!, by decide!, by decide!,
    by decide!, by decide!⟩

/-- The rounding function at zero, at a negative value, at ties (which go to the even
significand) and among the smallest values, whose spacing is `2^-149`. -/
theorem F32.round_samples :
    F32.round 0 = 0
    ∧ F32.round (-0.3) = -(5033165 / 16777216)
    ∧ F32.round 16777217 = 16777216
    ∧ F32.round 16777219 = 16777220
    ∧ F32.round (1 / 2 ^ 149) = 1 / 2 ^ 149
    ∧ F32.round (1 / 2 ^ 150) = 0
    ∧ F32.round (3 / 2 ^ 150) = 2 / 2 ^ 149 := by
  refine ⟨by decide!, by decide!, by decide!, by decide!, by decide!, by decide!, by decide!⟩

/-- With exact addition and subtraction, and the items left as they were when added, the
running total of a freshly constructed order agrees with the recomputed one after every
sequence of `addItem` and `removeItem` calls: a difference between the two can only come from
rounding. -/
theorem Order.calls_agree_exact (h : Heap) (id : Int) (name : String) (type : OrderType)
    (address : String) (cs : List OrderCall) :
    ((Order.new id name type address).calls h cs).total
      = (((Order.new id name type address).calls h cs).calculateTotal h).total := by
  rw [Order.calculateTotal_total]
  exact Order.calls_total h cs (Order.new id name type address) (by simp [Order.new])

/-! ### An item modified after it was added -/

/-- For comparison with the agreement of the running total and the recomputed one: when an
item is modified after it was added (here a topping is put on the object the order points to),
the running total and the recomputed total differ. -/
theorem Order.total_differs_when_item_modified :
    ((Order.new 1 "Alice" OrderType.DINE_IN "").addItem seeded.heap (some 0)).total = 5.5
    ∧ (((Order.new 1 "Alice" OrderType.DINE_IN "").addItem seeded.heap (some 0)).calculateTotal
        (seeded.heap.addTopping 0 { name := "Cheese", price := 0.5 })).total = 6 := by
  constructor <;>
  simp [Order.addItem, Order.calculateTotal, Order.new, Heap.getPrice, Heap.read,
    Heap.addTopping, Heap.write, MenuItem.getPrice, MenuItem.addTopping, Topping.getPrice,
    seeded, Pizzeria.new, Menu.new, Heap.alloc, Heap.empty, Pizza.mk, Function.update]
  norm_num

/-! ## The claims -/

/-- C1: for a menu item of any class, with any base price, after any finite sequence of
`addTopping` calls `getPrice()` is the base price plus the sum of the prices of the toppings the
item carries, which are the ones it had followed by exactly the ones added; for an item fresh
from the constructor of `Pizza`, `Drink` or `SideDish` that is the constructor's price plus the
sum of the prices of the toppings added. -/
theorem C1_getPrice_base_plus_toppings (m : MenuItem) (ts : List Topping) (name : String)
    (price : ℚ) :
    (m.addToppings ts).toppings = m.toppings ++ ts
    ∧ (m.addToppings ts).price = m.price
    ∧ (m.addToppings ts).getPrice
        = m.price + ((m.toppings ++ ts).map Topping.getPrice).sum
    ∧ (m.addToppings ts).getPrice = m.getPrice + (ts.map Topping.getPrice).sum
    ∧ ((Pizza.mk name price).addToppings ts).getPrice
        = price + (ts.map Topping.getPrice).sum
    ∧ ((Drink.mk name price).addToppings ts).getPrice
        = price + (ts.map Topping.getPrice).sum
    ∧ ((SideDish.mk name price).addToppings ts).getPrice
        = price + (ts.map Topping.getPrice).sum := by
  have key : ∀ x : MenuItem, (x.addToppings ts).getPrice
      = x.price + ((x.toppings ++ ts).map Topping.getPrice).sum := by
    intro x
    rw [MenuItem.getPrice_eq, MenuItem.addToppings_eq]
  refine ⟨?_, ?_, key m, ?_, ?_, ?_, ?_⟩
  · rw [MenuItem.addToppings_eq]
  · rw [MenuItem.addToppings_eq]
  · rw [key m, MenuItem.getPrice_eq, List.map_append, List.sum_append, add_assoc]
  · rw [key]; simp [Pizza.mk]
  · rw [key]; simp [Drink.mk]
  · rw [key]; simp [SideDish.mk]

/-- C2: after any sequence of `addItem` and `removeItem` calls on any order (null or non-null
items, valid or invalid indices, in any order), `calculateTotal()` sets `total` to the sum of
`getPrice()` over the items the order holds at that moment, and changes nothing else. -/
theorem C2_calculateTotal_after_calls (h h2 : Heap) (o : Order) (cs : List OrderCall) :
    ((o.calls h cs).calculateTotal h2).total = ((o.calls h cs).items.map h2.getPrice).sum
    ∧ ((o.calls h cs).calculateTotal h2).items = (o.calls h cs).items
    ∧ ((o.calls h cs).calculateTotal h2).id = (o.calls h cs).id
    ∧ ((o.calls h cs).calculateTotal h2).status = (o.calls h cs).status := by
  refine ⟨?_, rfl, rfl, rfl⟩
  simp only [Order.calculateTotal]
  rw [foldl_add_eq_add_sum h2.getPrice, zero_add]

/-- C3: `getItemCopy(i)` with `0 <= i < size` returns a pointer to an object with the name, the
price (base and effective), the toppings and the class of catalog entry `i`; with any other `i`
(negative, or `size` and above) it returns `nullptr` and changes nothing. -/
theorem C3_getItemCopy_valid_or_absent (menu : Menu) (h : Heap) (i : Int) :
    (0 ≤ i ∧ i < (menu.items.length : Int) →
      ∃ p q, menu.items[i.toNat]? = some p
        ∧ (menu.getItemCopy h i).2 = some q
        ∧ (menu.getItemCopy h i).1.getName q = h.getName p
        ∧ (menu.getItemCopy h i).1.getPrice q = h.getPrice p
        ∧ ((menu.getItemCopy h i).1.read q).price = (h.read p).price
        ∧ ((menu.getItemCopy h i).1.read q).toppings = (h.read p).toppings
        ∧ ((menu.getItemCopy h i).1.read q).variant = (h.read p).variant)
    ∧ (¬ (0 ≤ i ∧ i < (menu.items.length : Int)) → menu.getItemCopy h i = (h, none)) := by
  constructor
  · intro hi
    have hlt : i.toNat < menu.items.length := by omega
    have hget : menu.items[i.toNat]? = some (menu.items[i.toNat]) :=
      List.getElem?_eq_getElem hlt
    have hres : menu.getItemCopy h i
        = ((h.clone (menu.items[i.toNat])).1, some (h.clone (menu.items[i.toNat])).2) := by
      simp only [Menu.getItemCopy, if_pos hi, hget]
    have hnew : (h.clone (menu.items[i.toNat])).1.read (h.clone (menu.items[i.toNat])).2
        = h.read (menu.items[i.toNat]) := by
      have hq : (h.clone (menu.items[i.toNat])).2 = h.next := rfl
      rw [hq]
      simp only [Heap.clone]
      rw [Heap.read_alloc_new, MenuItem.clone_eq]
    refine ⟨menu.items[i.toNat], (h.clone (menu.items[i.toNat])).2, hget, ?_, ?_, ?_, ?_, ?_, ?_⟩
    · rw [hres]
    · rw [hres]; simp only [Heap.getName]; rw [hnew]
    · rw [hres]; simp only [Heap.getPrice]; rw [hnew]
    · rw [hres]; simp only []; rw [hnew]
    · rw [hres]; simp only []; rw [hnew]
    · rw [hres]; simp only []; rw [hnew]
  · intro hi
    simp only [Menu.getItemCopy, if_neg hi]

/-- C3 on the seeded menu: index `2` gives a copy of the Coke, a `Drink` priced `1.5`; index
`4` (the size) and index `-1` give `nullptr`. -/
theorem C3_getItemCopy_valid_or_absent_witness :
    ((0 : Int) ≤ 2 ∧ (2 : Int) < (seeded.menu.items.length : Int))
    ∧ (∃ q, (seeded.menu.getItemCopy seeded.heap 2).2 = some q
        ∧ (seeded.menu.getItemCopy seeded.heap 2).1.getName q = "Coke"
        ∧ ((seeded.menu.getItemCopy seeded.heap 2).1.read q).price = 1.5
        ∧ ((seeded.menu.getItemCopy seeded.heap 2).1.read q).variant = Variant.Drink)
    ∧ seeded.menu.getItemCopy seeded.heap 4 = (seeded.heap, none)
    ∧ seeded.menu.getItemCopy seeded.heap (-1) = (seeded.heap, none) := by
  refine ⟨by decide, ?_,
    (C3_getItemCopy_valid_or_absent seeded.menu seeded.heap 4).2 (by decide),
    (C3_getItemCopy_valid_or_absent seeded.menu seeded.heap (-1)).2 (by decide)⟩
  obtain ⟨p, q, hp, hq, hname, -, hprice, -, hvar⟩ :=
    (C3_getItemCopy_valid_or_absent seeded.menu seeded.heap 2).1 (by decide)
  have hp2 : p = 2 := by
    rw [seeded_menu] at hp
    simpa using hp.symm
  subst hp2
  exact ⟨q, hq, hname, hprice, hvar⟩

/-- C4: `clone()` gives a value-equal, independent copy.  For a live object at `p`, the clone is
a different object with the same name, base price, topping sequence and class; creating it
leaves the original as it was; and after any sequence of `addTopping` calls on the clone the
original still has the price and the topping sequence it had before. -/
theorem C4_clone_value_equal_independent (h : Heap) (p : Ptr) (hp : p < h.next)
    (ts : List Topping) :
    (h.clone p).2 ≠ p
    ∧ ((h.clone p).1.read (h.clone p).2).name = (h.read p).name
    ∧ ((h.clone p).1.read (h.clone p).2).price = (h.read p).price
    ∧ ((h.clone p).1.read (h.clone p).2).toppings = (h.read p).toppings
    ∧ ((h.clone p).1.read (h.clone p).2).variant = (h.read p).variant
    ∧ (h.clone p).1.read p = h.read p
    ∧ ((h.clone p).1.addToppings (h.clone p).2 ts).getPrice p = h.getPrice p
    ∧ (((h.clone p).1.addToppings (h.clone p).2 ts).read p).toppings = (h.read p).toppings
    ∧ (((h.clone p).1.addToppings (h.clone p).2 ts).read (h.clone p).2).toppings
        = (h.read p).toppings ++ ts := by
  have hq : (h.clone p).2 = h.next := rfl
  have hne : p ≠ (h.clone p).2 := by rw [hq]; exact Nat.ne_of_lt hp
  have hnew : (h.clone p).1.read (h.clone p).2 = h.read p := by
    rw [hq]
    simp only [Heap.clone]
    rw [Heap.read_alloc_new, MenuItem.clone_eq]
  have hold : (h.clone p).1.read p = h.read p := Heap.read_alloc_old h _ p hp
  have hkeep : ((h.clone p).1.addToppings (h.clone p).2 ts).read p = h.read p := by
    rw [Heap.read_addToppings_ne _ _ p ts hne, hold]
  refine ⟨fun e => hne e.symm, ?_, ?_, ?_, ?_, hold, ?_, ?_, ?_⟩
  · rw [hnew]
  · rw [hnew]
  · rw [hnew]
  · rw [hnew]
  · simp only [Heap.getPrice]; rw [hkeep]
  · rw [hkeep]
  · rw [Heap.read_addToppings_same, hnew, MenuItem.addToppings_eq]

/-- C4 at a concrete store: the pizza at address `0` of `demoHeap`, two toppings added to its
clone. -/
theorem C4_clone_value_equal_independent_witness :
    (0 : Ptr) < demoHeap.next
    ∧ (demoHeap.clone 0).2 ≠ 0
    ∧ ((demoHeap.clone 0).1.addToppings (demoHeap.clone 0).2
          [{ name := "Cheese", price := 0.5 }, { name := "Tomatoes", price := 0.25 }]).getPrice 0
        = demoHeap.getPrice 0 :=
  ⟨by decide,
   (C4_clone_value_equal_independent demoHeap 0 (by decide)
      [{ name := "Cheese", price := 0.5 }, { name := "Tomatoes", price := 0.25 }]).1,
   (C4_clone_value_equal_independent demoHeap 0 (by decide)
      [{ name := "Cheese", price := 0.5 }, { name := "Tomatoes", price := 0.25 }]).2.2.2.2.2.2.1⟩

/-- C5: `removeItem(index)` with `index` negative or at least the number of items takes the
branch that prints "Invalid index." and leaves the order (items, total, id, status, customer
name, type and address) as it was. -/
theorem C5_removeItem_invalid_index (o : Order) (h : Heap) (index : Int)
    (hbad : index < 0 ∨ (o.items.length : Int) ≤ index) :
    o.removeItem h index = (o, ["Invalid index.\n"]) := by
  have hi : ¬ (0 ≤ index ∧ index < (o.items.length : Int)) := by omega
  simp only [Order.removeItem, if_neg hi]

/-- C5 at a concrete order: index `2` on an order of two items, and index `-1`. -/
theorem C5_removeItem_invalid_index_witness :
    ((2 : Int) < 0 ∨ (demoOrder.items.length : Int) ≤ 2)
    ∧ demoOrder.removeItem seeded.heap 2 = (demoOrder, ["Invalid index.\n"])
    ∧ demoOrder.removeItem seeded.heap (-1) = (demoOrder, ["Invalid index.\n"]) :=
  ⟨Or.inr (by decide),
   C5_removeItem_invalid_index demoOrder seeded.heap 2 (Or.inr (by decide)),
   C5_removeItem_invalid_index demoOrder seeded.heap (-1) (Or.inl (by decide))⟩

/-- C6: `removeItem(index)` with `0 <= index < size` takes the branch that prints
"Item removed from order.", lowers `total` by exactly the effective price of the item at
`index`, and deletes exactly that position from the item sequence: the items before it and the
items after it stay, in their order; every other member is unchanged. -/
theorem C6_removeItem_valid_index (o : Order) (h : Heap) (index : Int)
    (h0 : 0 ≤ index) (h1 : index < (o.items.length : Int)) :
    ∃ p, o.items[index.toNat]? = some p
      ∧ (o.removeItem h index).1.total = o.total - h.getPrice p
      ∧ (o.removeItem h index).1.items = o.items.eraseIdx index.toNat
      ∧ (o.removeItem h index).1.items
          = o.items.take index.toNat ++ o.items.drop (index.toNat + 1)
      ∧ (o.removeItem h index).1.items.length + 1 = o.items.length
      ∧ (o.removeItem h index).1.id = o.id
      ∧ (o.removeItem h index).1.status = o.status
      ∧ (o.removeItem h index).1.customerName = o.customerName
      ∧ (o.removeItem h index).1.type = o.type
      ∧ (o.removeItem h index).1.deliveryAddress = o.deliveryAddress
      ∧ (o.removeItem h index).2 = ["Item removed from order.\n"] := by
  have hlt : index.toNat < o.items.length := by omega
  have hget : o.items[index.toNat]? = some (o.items[index.toNat]) :=
    List.getElem?_eq_getElem hlt
  have hres : o.removeItem h index
      = ({ o with total := o.total - h.getPrice (o.items[index.toNat]),
                  items := o.items.eraseIdx index.toNat },
          ["Item removed from order.\n"]) := by
    simp only [Order.removeItem, if_pos (And.intro h0 h1), hget]
  refine ⟨o.items[index.toNat], hget, ?_⟩
  rw [hres]
  refine ⟨rfl, rfl, ?_, ?_, rfl, rfl, rfl, rfl, rfl, rfl⟩
  · exact List.eraseIdx_eq_take_drop_succ o.items index.toNat
  · simp only []
    rw [List.length_eraseIdx_of_lt hlt]
    omega

/-- C6 at a concrete order: removing position `0` of an order holding the Margherita (address
`0`) and the Coke (address `2`) leaves the Coke alone and lowers the total from `7.0` by the
Margherita's `5.5`. -/
theorem C6_removeItem_valid_index_witness :
    (0 : Int) ≤ 0 ∧ (0 : Int) < (demoOrder.items.length : Int)
    ∧ demoOrder.items = [0, 2]
    ∧ demoOrder.total = 7
    ∧ (demoOrder.removeItem seeded.heap 0).1.items = [2]
    ∧ (demoOrder.removeItem seeded.heap 0).1.total = 1.5 := by
  obtain ⟨p, hp, ht, hi, -⟩ :=
    C6_removeItem_valid_index demoOrder seeded.heap 0 (by decide) (by decide)
  have hitems : demoOrder.items = [0, 2] := rfl
  have hp0 : p = 0 := by
    rw [hitems] at hp
    simpa using hp.symm
  subst hp0
  have htotal : demoOrder.total = 7 := by
    simp [demoOrder, Order.addItem, Order.new, Heap.getPrice, Heap.read, MenuItem.getPrice,
      seeded, Pizzeria.new, Menu.new, Heap.alloc, Heap.empty, Pizza.mk, Drink.mk,
      Function.update]
    norm_num
  have hprice : seeded.heap.getPrice 0 = 5.5 := by
    simp [Heap.getPrice, Heap.read, MenuItem.getPrice,
      seeded, Pizzeria.new, Menu.new, Heap.alloc, Heap.empty, Pizza.mk, Function.update]
  refine ⟨by decide, by decide, hitems, htotal, ?_, ?_⟩
  · rw [hi, hitems]
    rfl
  · rw [ht, htotal, hprice]
    norm_num

/-- C7: starting from a freshly constructed pizzeria, after any run of the main loop that
contains `N` passes through `takeOrder` (with any inputs, interleaved with any other passes) the
order list holds exactly `N` orders and the order in position `k` (counting from 1) has id `k`. -/
theorem C7_sequential_order_ids (h : Heap) (cs : List Command) :
    ((Pizzeria.new h).run cs).orders.length = Command.countTakeOrder cs
    ∧ ((Pizzeria.new h).run cs).orders.map Order.getId
        = (List.range (Command.countTakeOrder cs)).map (fun (k : Nat) => (k : Int) + 1)
    ∧ (∀ k : Nat, k < Command.countTakeOrder cs →
        ∃ o, ((Pizzeria.new h).run cs).orders[k]? = some o ∧ o.getId = (k : Int) + 1)
    ∧ ((Pizzeria.new h).run cs).nextOrderId = (Command.countTakeOrder cs : Int) + 1 := by
  have h0 : (Pizzeria.new h).IdsSequential := by
    unfold Pizzeria.IdsSequential
    simp [Pizzeria.new]
  have hr := Pizzeria.run_ids cs (Pizzeria.new h) h0
  have hlen : ((Pizzeria.new h).run cs).orders.length = Command.countTakeOrder cs := by
    rw [hr.2]
    simp [Pizzeria.new]
  have hids := hr.1.1
  have hnext := hr.1.2
  rw [hlen] at hids hnext
  refine ⟨hlen, hids, ?_, hnext⟩
  intro k hk
  have hk2 : k < ((Pizzeria.new h).run cs).orders.length := by rw [hlen]; exact hk
  refine ⟨((Pizzeria.new h).run cs).orders[k], List.getElem?_eq_getElem hk2, ?_⟩
  have e := congrArg (fun l => l[k]?) hids
  simp only [List.getElem?_map, List.getElem?_eq_getElem hk2, Option.map_some',
    List.getElem?_range hk] at e
  exact Option.some.inj e

/-- C7 on a concrete run: two `takeOrder` passes with a cancellation, a catalog extension and a
failed status update between them leave two orders, with ids `1` and `2`. -/
theorem C7_sequential_order_ids_witness :
    ((Pizzeria.new Heap.empty).run demoRun).orders.length = 2
    ∧ ((Pizzeria.new Heap.empty).run demoRun).orders.map Order.getId = [1, 2] :=
  ⟨(C7_sequential_order_ids Heap.empty demoRun).1,
   (C7_sequential_order_ids Heap.empty demoRun).2.1⟩

/-- C8: in the freshly seeded pizzeria the new order for "Alice" of type `DINE_IN` has total
`0`; after the pass that adds a copy of the Margherita carrying Cheese the order holds that one
item and its total is `6.00`; after the pass that adds a copy of the Coke the total is `7.50`;
after the pass that removes position `1` the total is `6.00` and only the Margherita is left;
`calculateTotal()` then gives `6.00`, which is the total of the order `takeOrder` files. -/
theorem C8_alice_scenario :
    alice.total = 0
    ∧ alice.type = OrderType.DINE_IN
    ∧ alice.customerName = "Alice"
    ∧ (Pizzeria.itemLoop seeded.menu seeded.heap alice (aliceRounds.take 1)).2.1.total = 6
    ∧ (Pizzeria.itemLoop seeded.menu seeded.heap alice (aliceRounds.take 1)).2.1.items = [4]
    ∧ (Pizzeria.itemLoop seeded.menu seeded.heap alice (aliceRounds.take 1)).1.read 4
        = { variant := Variant.Pizza, name := "Margherita", price := 5.5,
            toppings := [{ name := "Cheese", price := 0.5 }] }
    ∧ (Pizzeria.itemLoop seeded.menu seeded.heap alice (aliceRounds.take 2)).2.1.total = 7.5
    ∧ (Pizzeria.itemLoop seeded.menu seeded.heap alice (aliceRounds.take 2)).2.1.items = [4, 5]
    ∧ (Pizzeria.itemLoop seeded.menu seeded.heap alice (aliceRounds.take 2)).1.read 5
        = { variant := Variant.Drink, name := "Coke", price := 1.5, toppings := [] }
    ∧ (Pizzeria.itemLoop seeded.menu seeded.heap alice aliceRounds).2.1.total = 6
    ∧ (Pizzeria.itemLoop seeded.menu seeded.heap alice aliceRounds).2.1.items = [4]
    ∧ ((Pizzeria.itemLoop seeded.menu seeded.heap alice aliceRounds).2.1.calculateTotal
        (Pizzeria.itemLoop seeded.menu seeded.heap alice aliceRounds).1).total = 6
    ∧ (seeded.takeOrder
        { name := "Alice", typeInput := 0, address := "", rounds := aliceRounds }).1.orders.map
          Order.total = [6] := by
  refine ⟨rfl, rfl, rfl, ?_, ?_, ?_, ?_, ?_, ?_, ?_, ?_, ?_, ?_⟩ <;>
  simp [Pizzeria.takeOrder, Pizzeria.itemLoop, aliceRounds, Menu.getItemCopy, seeded_menu,
    Pizzeria.toppingLoop, Pizzeria.predefinedToppings, Order.addItem, Order.removeItem,
    Order.calculateTotal, Heap.getPrice, Heap.read, Heap.addTopping, Heap.write, Heap.clone,
    Heap.alloc, seeded_next, MenuItem.clone_eq, MenuItem.getPrice, MenuItem.addTopping, alice,
    Order.new, Topping.getPrice, OrderType.DELIVERY] <;>
  simp [seeded, Pizzeria.new, Menu.new, Heap.alloc, Heap.empty, Pizza.mk, Drink.mk,
    Function.update] <;>
  norm_num

/-- C9: `addNewItem` with type selector `0`, `1` or `2` appends exactly one entry at the end of
the catalog, a `Pizza`, `Drink` or `SideDish` respectively with the given name and price and no
toppings; the earlier entries are the same objects, unchanged; `getItemCopy` at the old size
returns a copy of the new entry.  With any other selector it prints "Invalid type." and changes
nothing. -/
theorem C9_addNewItem_appends (menu : Menu) (h : Heap) (type : Int) (name : String) (price : ℚ)
    (v : Variant) (own : h.Owns menu.items) :
    (((type = 0 ∧ v = Variant.Pizza) ∨ (type = 1 ∧ v = Variant.Drink)
        ∨ (type = 2 ∧ v = Variant.SideDish)) →
      ∃ q c, (menu.addNewItem h type name price).2.1.items = menu.items ++ [q]
        ∧ q ∉ menu.items
        ∧ (menu.addNewItem h type name price).1.read q
            = { variant := v, name := name, price := price, toppings := [] }
        ∧ (∀ p ∈ menu.items, (menu.addNewItem h type name price).1.read p = h.read p)
        ∧ ((menu.addNewItem h type name price).2.1.getItemCopy
              (menu.addNewItem h type name price).1 (menu.items.length : Int)).2 = some c
        ∧ ((menu.addNewItem h type name price).2.1.getItemCopy
              (menu.addNewItem h type name price).1 (menu.items.length : Int)).1.read c
            = { variant := v, name := name, price := price, toppings := [] }
        ∧ (menu.addNewItem h type name price).2.2 = [])
    ∧ ((type ≠ 0 ∧ type ≠ 1 ∧ type ≠ 2) →
        menu.addNewItem h type name price = (h, menu, ["Invalid type.\n"])) := by
  have fresh : h.next ∉ menu.items := fun hin => Nat.lt_irrefl _ (own _ hin)
  have main : ∀ m : MenuItem,
      menu.addNewItem h type name price
        = ((h.alloc m).1, { items := menu.items ++ [(h.alloc m).2] }, []) →
      ∃ q c, (menu.addNewItem h type name price).2.1.items = menu.items ++ [q]
        ∧ q ∉ menu.items
        ∧ (menu.addNewItem h type name price).1.read q = m
        ∧ (∀ p ∈ menu.items, (menu.addNewItem h type name price).1.read p = h.read p)
        ∧ ((menu.addNewItem h type name price).2.1.getItemCopy
              (menu.addNewItem h type name price).1 (menu.items.length : Int)).2 = some c
        ∧ ((menu.addNewItem h type name price).2.1.getItemCopy
              (menu.addNewItem h type name price).1 (menu.items.length : Int)).1.read c = m
        ∧ (menu.addNewItem h type name price).2.2 = [] := by
    intro m hm
    obtain ⟨c, hc1, hc2⟩ := Menu.getItemCopy_pushed menu.items h m
    rw [hm]
    exact ⟨h.next, c, rfl, fresh, Heap.read_alloc_new h m,
      fun p hp => Heap.read_alloc_old h m p (own p hp), hc1, hc2, rfl⟩
  constructor
  · rintro (⟨ht, hv⟩ | ⟨ht, hv⟩ | ⟨ht, hv⟩)
    · subst ht; subst hv
      exact main (Pizza.mk name price) (by simp [Menu.addNewItem])
    · subst ht; subst hv
      exact main (Drink.mk name price) (by simp [Menu.addNewItem])
    · subst ht; subst hv
      exact main (SideDish.mk name price) (by simp [Menu.addNewItem])
  · rintro ⟨h0, h1, h2⟩
    simp only [Menu.addNewItem, if_neg h0, if_neg h1, if_neg h2]

/-- C9 on the seeded menu: selector `1`, name "Sprite", price `1.75` puts a `Drink` named
"Sprite" priced `1.75` at index `4`, where `getItemCopy` finds it. -/
theorem C9_addNewItem_appends_witness :
    seeded.heap.Owns seeded.menu.items
    ∧ ∃ q c, (seeded.menu.addNewItem seeded.heap 1 "Sprite" 1.75).2.1.items
          = seeded.menu.items ++ [q]
        ∧ q ∉ seeded.menu.items
        ∧ (seeded.menu.addNewItem seeded.heap 1 "Sprite" 1.75).1.read q
            = { variant := Variant.Drink, name := "Sprite", price := 1.75, toppings := [] }
        ∧ (∀ p ∈ seeded.menu.items,
            (seeded.menu.addNewItem seeded.heap 1 "Sprite" 1.75).1.read p = seeded.heap.read p)
        ∧ ((seeded.menu.addNewItem seeded.heap 1 "Sprite" 1.75).2.1.getItemCopy
              (seeded.menu.addNewItem seeded.heap 1 "Sprite" 1.75).1 4).2 = some c
        ∧ ((seeded.menu.addNewItem seeded.heap 1 "Sprite" 1.75).2.1.getItemCopy
              (seeded.menu.addNewItem seeded.heap 1 "Sprite" 1.75).1 4).1.read c
            = { variant := Variant.Drink, name := "Sprite", price := 1.75, toppings := [] }
        ∧ (seeded.menu.addNewItem seeded.heap 1 "Sprite" 1.75).2.2 = [] :=
  ⟨seeded_owns,
   (C9_addNewItem_appends seeded.menu seeded.heap 1 "Sprite" 1.75 Variant.Drink seeded_owns).1
     (Or.inr (Or.inl ⟨rfl, rfl⟩))⟩

/-- C10: when no order in the list has the id, `updateOrderStatus` and `cancelOrder` both end
in the branch that prints "Order not found." and leave the pizzeria (the order list with every
order's members, the menu, the store and the id counter) as it was. -/
theorem C10_unknown_id_not_found (p : Pizzeria) (id statusInput : Int)
    (hno : ∀ o ∈ p.orders, o.getId ≠ id) :
    p.updateOrderStatus id statusInput = (p, ["Order not found.\n"])
    ∧ p.cancelOrder id = (p, ["Order not found.\n"]) := by
  constructor
  · simp only [Pizzeria.updateOrderStatus, Pizzeria.scan_eq_none id _ p.orders hno]
  · simp only [Pizzeria.cancelOrder, Pizzeria.scan_eq_none id _ p.orders hno]

/-- C10 at a concrete state: id `5` in a pizzeria whose orders have ids `1` and `2`. -/
theorem C10_unknown_id_not_found_witness :
    (∀ o ∈ twoOrders.orders, o.getId ≠ 5)
    ∧ twoOrders.updateOrderStatus 5 1 = (twoOrders, ["Order not found.\n"])
    ∧ twoOrders.cancelOrder 5 = (twoOrders, ["Order not found.\n"]) :=
  ⟨by decide, C10_unknown_id_not_found twoOrders 5 1 (by decide)⟩

/-- C11: when some order has the id, `updateOrderStatus` takes the branch that prints
"Order status updated." and gives the first order with that id the status entered, whatever the
status it had and whatever the one entered (`PENDING`, `PREPARING`, `READY`, `DELIVERED`,
`CANCELLED` or any other value of the enumeration); that order keeps its id, customer data,
items and total, every other order is unchanged, and so are the menu, the store and the id
counter. -/
theorem C11_updateOrderStatus_found (p : Pizzeria) (id statusInput : Int)
    (hex : ∃ o ∈ p.orders, o.getId = id) :
    ∃ pre o post, p.orders = pre ++ o :: post
      ∧ (∀ x ∈ pre, x.getId ≠ id)
      ∧ o.getId = id
      ∧ p.updateOrderStatus id statusInput
          = ({ p with orders := pre ++ { o with status := { val := statusInput } } :: post },
              ["Order status updated.\n"]) := by
  obtain ⟨pre, o, post, hsplit, hpre, hid, hscan⟩ :=
    Pizzeria.scan_of_mem id { val := statusInput } p.orders hex
  refine ⟨pre, o, post, hsplit, hpre, hid, ?_⟩
  simp only [Pizzeria.updateOrderStatus, hscan, Order.updateStatus]

/-- C11 at a concrete state: the delivered order `1` and the cancelled order `2` are both set
back to `PENDING`, and nothing else moves. -/
theorem C11_updateOrderStatus_found_witness :
    (∃ o ∈ statusDemo.orders, o.getId = 1)
    ∧ (∃ pre o post, statusDemo.orders = pre ++ o :: post
        ∧ (∀ x ∈ pre, x.getId ≠ 1)
        ∧ o.getId = 1
        ∧ statusDemo.updateOrderStatus 1 0
            = ({ statusDemo with orders := pre ++ { o with status := { val := 0 } } :: post },
                ["Order status updated.\n"]))
    ∧ (statusDemo.updateOrderStatus 1 0).1.orders.map Order.status
        = [OrderStatus.PENDING, OrderStatus.CANCELLED, OrderStatus.PENDING]
    ∧ (statusDemo.updateOrderStatus 2 0).1.orders.map Order.status
        = [OrderStatus.DELIVERED, OrderStatus.PENDING, OrderStatus.PENDING] :=
  ⟨⟨_, List.mem_cons_self _ _, rfl⟩,
   C11_updateOrderStatus_found statusDemo 1 0 ⟨_, List.mem_cons_self _ _, rfl⟩,
   by decide, by decide⟩

/-- C12: when some order has the id, `cancelOrder` takes the branch that prints the
cancellation line and sets the status of the first order with that id to `CANCELLED`, whatever
it was; the list keeps its length and the same id in every position, that order keeps its
customer data, items and total, every other order is unchanged, and so are the menu, the store
and the id counter.  No order is deleted. -/
theorem C12_cancelOrder_found (p : Pizzeria) (id : Int)
    (hex : ∃ o ∈ p.orders, o.getId = id) :
    ∃ pre o post, p.orders = pre ++ o :: post
      ∧ (∀ x ∈ pre, x.getId ≠ id)
      ∧ o.getId = id
      ∧ p.cancelOrder id
          = ({ p with orders := pre ++ { o with status := OrderStatus.CANCELLED } :: post },
              ["Order #" ++ toString id ++ " has been cancelled.\n"])
      ∧ (p.cancelOrder id).1.orders.length = p.orders.length
      ∧ (p.cancelOrder id).1.orders.map Order.getId = p.orders.map Order.getId := by
  obtain ⟨pre, o, post, hsplit, hpre, hid, hscan⟩ :=
    Pizzeria.scan_of_mem id OrderStatus.CANCELLED p.orders hex
  have hres : p.cancelOrder id
      = ({ p with orders := pre ++ { o with status := OrderStatus.CANCELLED } :: post },
          ["Order #" ++ toString id ++ " has been cancelled.\n"]) := by
    simp only [Pizzeria.cancelOrder, hscan, Order.updateStatus]
  refine ⟨pre, o, post, hsplit, hpre, hid, hres, ?_, ?_⟩
  · rw [hres, hsplit]
    simp
  · rw [hres, hsplit]
    simp [Order.getId]

/-- C12 at a concrete state: cancelling the delivered order `1` and the pending order `3` keeps
three orders with ids `1`, `2`, `3`. -/
theorem C12_cancelOrder_found_witness :
    (∃ o ∈ statusDemo.orders, o.getId = 3)
    ∧ (statusDemo.cancelOrder 3).1.orders.length = statusDemo.orders.length
    ∧ (statusDemo.cancelOrder 3).1.orders.map Order.getId = statusDemo.orders.map Order.getId
    ∧ (statusDemo.cancelOrder 3).1.orders.map Order.status
        = [OrderStatus.DELIVERED, OrderStatus.CANCELLED, OrderStatus.CANCELLED]
    ∧ (statusDemo.cancelOrder 1).1.orders.map Order.status
        = [OrderStatus.CANCELLED, OrderStatus.CANCELLED, OrderStatus.PENDING]
    ∧ (statusDemo.cancelOrder 1).1.orders.map Order.getId = [1, 2, 3] :=
  ⟨⟨_, List.mem_cons_of_mem _ (List.mem_cons_of_mem _ (List.mem_cons_self _ _)), rfl⟩,
   (C12_cancelOrder_found statusDemo 3
      ⟨_, List.mem_cons_of_mem _ (List.mem_cons_of_mem _ (List.mem_cons_self _ _)), rfl⟩).elim
     (fun _ h1 => h1.elim (fun _ h2 => h2.elim (fun _ h3 => h3.2.2.2.2.1))),
   (C12_cancelOrder_found statusDemo 3
      ⟨_, List.mem_cons_of_mem _ (List.mem_cons_of_mem _ (List.mem_cons_self _ _)), rfl⟩).elim
     (fun _ h1 => h1.elim (fun _ h2 => h2.elim (fun _ h3 => h3.2.2.2.2.2))),
   by decide, by decide, by decide⟩

/-- C13: whatever the state and whatever is entered (valid and invalid item indices, topping
choices, removals), `takeOrder` leaves the previous order list with exactly one order appended;
that order has status `PENDING`, its id is the previous value of the id counter, it carries the
name and type entered, and its stored total is the sum of the effective prices of the items it
holds; the counter has advanced by one. -/
theorem C13_takeOrder_files_one_order (p : Pizzeria) (input : OrderInput) :
    ∃ o, (p.takeOrder input).1.orders = p.orders ++ [o]
      ∧ o.status = OrderStatus.PENDING
      ∧ o.id = p.nextOrderId
      ∧ o.total = (o.items.map (p.takeOrder input).1.heap.getPrice).sum
      ∧ o.customerName = input.name
      ∧ o.type = { val := input.typeInput }
      ∧ (p.takeOrder input).1.nextOrderId = p.nextOrderId + 1 := by
  obtain ⟨items, total, e⟩ := Pizzeria.itemLoop_fields p.menu input.rounds p.heap
    (Order.new p.nextOrderId input.name { val := input.typeInput }
      (if ({ val := input.typeInput } : OrderType) = OrderType.DELIVERY
        then input.address else ""))
  refine ⟨_, rfl, ?_, ?_, ?_, ?_, ?_, rfl⟩
  · simp only [Order.calculateTotal]
    rw [e]
    rfl
  · simp only [Order.calculateTotal]
    rw [e]
    rfl
  · simp only [Pizzeria.takeOrder, Order.calculateTotal]
    rw [foldl_add_eq_add_sum, zero_add]
  · simp only [Order.calculateTotal]
    rw [e]
    rfl
  · simp only [Order.calculateTotal]
    rw [e]
    rfl

/-- C13 on the seeded pizzeria: a delivery order entered with the mixed passes is filed as the
only order, with id `1`, status `PENDING`, the address entered and total `2.25`, and the counter
moves to `2`. -/
theorem C13_takeOrder_files_one_order_witness :
    (∃ o, (seeded.takeOrder { name := "Dan", typeInput := 2, address := "5 Elm St",
                              rounds := mixedRounds }).1.orders = seeded.orders ++ [o]
      ∧ o.status = OrderStatus.PENDING
      ∧ o.id = seeded.nextOrderId
      ∧ o.total = (o.items.map
          (seeded.takeOrder { name := "Dan", typeInput := 2, address := "5 Elm St",
                              rounds := mixedRounds }).1.heap.getPrice).sum
      ∧ o.customerName = "Dan"
      ∧ o.type = { val := 2 }
      ∧ (seeded.takeOrder { name := "Dan", typeInput := 2, address := "5 Elm St",
                            rounds := mixedRounds }).1.nextOrderId = seeded.nextOrderId + 1)
    ∧ (seeded.takeOrder { name := "Dan", typeInput := 2, address := "5 Elm St",
                          rounds := mixedRounds }).1.orders.map Order.total = [2.25]
    ∧ (seeded.takeOrder { name := "Dan", typeInput := 2, address := "5 Elm St",
                          rounds := mixedRounds }).1.orders.map Order.deliveryAddress
        = ["5 Elm St"] := by
  refine ⟨C13_takeOrder_files_one_order seeded
    { name := "Dan", typeInput := 2, address := "5 Elm St", rounds := mixedRounds }, ?_, ?_⟩ <;>
  simp [Pizzeria.takeOrder, Pizzeria.itemLoop, mixedRounds, Menu.getItemCopy, seeded_menu,
    Pizzeria.toppingLoop, Pizzeria.predefinedToppings, Order.addItem, Order.removeItem,
    Order.calculateTotal, Heap.getPrice, Heap.read, Heap.addTopping, Heap.write, Heap.clone,
    Heap.alloc, seeded_next, MenuItem.clone_eq, MenuItem.getPrice, MenuItem.addTopping,
    Order.new, Topping.getPrice, OrderType.DELIVERY] <;>
  simp [seeded, Pizzeria.new, Menu.new, Heap.alloc, Heap.empty, Pizza.mk, Drink.mk,
    SideDish.mk, Function.update]
  norm_num

/-- C14: catalog integrity.  In a state whose catalog entries are live objects, `takeOrder`
(whatever is entered, toppings included), `updateOrderStatus`, `cancelOrder` and
`showAllOrders` leave the menu as it was and every catalog entry the same object with the same
name, price and toppings.  Over any run of the main loop the catalog keeps its entries in place
and unchanged and can only grow at the end; it does not change at all when the run has no
`addMenuItem` pass; and entries that carry no topping still carry none, as is the case of every
entry in every state reached from a freshly constructed pizzeria. -/
theorem C14_catalog_integrity (p : Pizzeria) (own : p.heap.Owns p.menu.items)
    (cs : List Command) (input : OrderInput) (id statusInput : Int) :
    ((p.takeOrder input).1.menu = p.menu
      ∧ ∀ q ∈ p.menu.items, (p.takeOrder input).1.heap.read q = p.heap.read q)
    ∧ ((p.updateOrderStatus id statusInput).1.menu = p.menu
      ∧ (p.updateOrderStatus id statusInput).1.heap = p.heap)
    ∧ ((p.cancelOrder id).1.menu = p.menu ∧ (p.cancelOrder id).1.heap = p.heap)
    ∧ p.showAllOrders.1 = p
    ∧ (∃ extra, (p.run cs).menu.items = p.menu.items ++ extra)
    ∧ (∀ q ∈ p.menu.items, (p.run cs).heap.read q = p.heap.read q)
    ∧ ((∀ c ∈ cs, ∀ t n pr, c ≠ Command.addMenuItem t n pr) → (p.run cs).menu = p.menu)
    ∧ (p.CatalogPlain → (p.run cs).CatalogPlain)
    ∧ (∀ h : Heap, ((Pizzeria.new h).run cs).CatalogPlain) := by
  obtain ⟨-, hread, hext, hsame⟩ := Pizzeria.run_catalog cs p
  have htake := Pizzeria.itemLoop_frame p.menu input.rounds p.heap
    (Order.new p.nextOrderId input.name { val := input.typeInput }
      (if ({ val := input.typeInput } : OrderType) = OrderType.DELIVERY
        then input.address else ""))
  refine ⟨⟨rfl, fun q hq => htake.2 q (own q hq)⟩, ?_, ?_, rfl, hext,
    fun q hq => hread q (own q hq), hsame, Pizzeria.run_plain cs p,
    fun h => Pizzeria.run_plain cs (Pizzeria.new h) (Pizzeria.new_plain h)⟩
  · exact ⟨(Pizzeria.updateOrderStatus_heap_menu p id statusInput).2,
      (Pizzeria.updateOrderStatus_heap_menu p id statusInput).1⟩
  · exact ⟨(Pizzeria.cancelOrder_heap_menu p id).2, (Pizzeria.cancelOrder_heap_menu p id).1⟩

/-- C14 on the seeded pizzeria: after a run that takes an order with a topping on the
Margherita, cancels it, adds the Sprite and takes a second order, the four seeded entries are
where they were, unchanged, and the Sprite has been appended; the Margherita of the catalog
still carries no topping. -/
theorem C14_catalog_integrity_witness :
    seeded.heap.Owns seeded.menu.items
    ∧ (∀ q ∈ seeded.menu.items, (seeded.run demoRun).heap.read q = seeded.heap.read q)
    ∧ (seeded.run demoRun).menu.items = [0, 1, 2, 3, 6]
    ∧ (seeded.run demoRun).heap.read 0 = Pizza.mk "Margherita" 5.5
    ∧ (seeded.takeOrder { name := "Alice", typeInput := 0, address := "",
                          rounds := aliceRounds }).1.menu = seeded.menu := by
  have hw := C14_catalog_integrity seeded seeded_owns demoRun
    { name := "Alice", typeInput := 0, address := "", rounds := aliceRounds } 0 0
  refine ⟨seeded_owns, hw.2.2.2.2.2.1, by decide, ?_, hw.1.1⟩
  rw [hw.2.2.2.2.2.1 0 (by decide)]
  simp [seeded, Pizzeria.new, Menu.new, Heap.alloc, Heap.empty, Heap.read, Function.update]

/-- C15: the effective price of a menu item is at least its base price whenever the toppings
it carries and the toppings added by any sequence of `addTopping` calls have non-negative
prices; every predefined topping has a non-negative price, so this holds for every item fresh
from a constructor after toppings are chosen by any entered indices. -/
theorem C15_getPrice_ge_base (m : MenuItem) (ts : List Topping) (tis : List Int)
    (name : String) (price : ℚ)
    (hm : ∀ t ∈ m.toppings, 0 ≤ t.getPrice) (hts : ∀ t ∈ ts, 0 ≤ t.getPrice) :
    m.price ≤ m.getPrice
    ∧ m.price ≤ (m.addToppings ts).getPrice
    ∧ (∀ t ∈ Pizzeria.predefinedToppings, 0 ≤ t.getPrice)
    ∧ m.price ≤ (m.addToppings (Pizzeria.chosenToppings tis)).getPrice
    ∧ price ≤ ((Pizza.mk name price).addToppings (Pizzeria.chosenToppings tis)).getPrice
    ∧ price ≤ ((Drink.mk name price).addToppings (Pizzeria.chosenToppings tis)).getPrice
    ∧ price ≤ ((SideDish.mk name price).addToppings (Pizzeria.chosenToppings tis)).getPrice := by
  have hchosen : ∀ t ∈ Pizzeria.chosenToppings tis, 0 ≤ t.getPrice := fun t ht =>
    Pizzeria.predefinedToppings_nonneg t (Pizzeria.chosenToppings_subset tis t ht)
  have hbase : ∀ x : MenuItem, (∀ t ∈ x.toppings, 0 ≤ t.getPrice) → x.price ≤ x.getPrice := by
    intro x hx
    rw [MenuItem.getPrice_eq]
    exact le_add_of_nonneg_right (sum_prices_nonneg Topping.getPrice x.toppings hx)
  have hadd : ∀ (x : MenuItem) (l : List Topping), (∀ t ∈ x.toppings, 0 ≤ t.getPrice) →
      (∀ t ∈ l, 0 ≤ t.getPrice) → x.price ≤ (x.addToppings l).getPrice := by
    intro x l hx hl
    rw [MenuItem.getPrice_addToppings]
    exact le_trans (hbase x hx)
      (le_add_of_nonneg_right (sum_prices_nonneg Topping.getPrice l hl))
  have hnil : ∀ t ∈ ([] : List Topping), 0 ≤ t.getPrice := fun t ht => by cases ht
  exact ⟨hbase m hm, hadd m ts hm hts, Pizzeria.predefinedToppings_nonneg,
    hadd m _ hm hchosen, hadd (Pizza.mk name price) _ hnil hchosen,
    hadd (Drink.mk name price) _ hnil hchosen, hadd (SideDish.mk name price) _ hnil hchosen⟩

/-- C15 at a concrete item: the Margherita of `demoHeap`, which carries Olives, after Cheese
and Tomatoes are added. -/
theorem C15_getPrice_ge_base_witness :
    (∀ t ∈ (demoHeap.read 0).toppings, 0 ≤ t.getPrice)
    ∧ (∀ t ∈ [({ name := "Cheese", price := 0.5 } : Topping),
               { name := "Tomatoes", price := 0.25 }], 0 ≤ t.getPrice)
    ∧ (demoHeap.read 0).price
        ≤ ((demoHeap.read 0).addToppings [{ name := "Cheese", price := 0.5 },
              { name := "Tomatoes", price := 0.25 }]).getPrice := by
  have h1 : ∀ t ∈ (demoHeap.read 0).toppings, 0 ≤ t.getPrice := by
    intro t ht
    have e : (demoHeap.read 0).toppings = [{ name := "Olives", price := 0.3 }] := by
      simp [demoHeap, Heap.read, Heap.alloc, Heap.empty, MenuItem.addTopping, Pizza.mk]
    rw [e, List.mem_singleton] at ht
    subst ht
    simp [Topping.getPrice]
    norm_num
  have h2 : ∀ t ∈ [({ name := "Cheese", price := 0.5 } : Topping),
      { name := "Tomatoes", price := 0.25 }], 0 ≤ t.getPrice := by
    intro t ht
    simp only [List.mem_cons, List.mem_singleton, List.not_mem_nil, or_false] at ht
    rcases ht with rfl | rfl <;> simp [Topping.getPrice] <;> norm_num
  exact ⟨h1, h2, (C15_getPrice_ge_base (demoHeap.read 0) _ [] "" 0 h1 h2).2.1⟩

/-- C16, refuted as stated: from the freshly constructed pizzeria, adding a pizza priced `-1`
to the catalog and taking an order for it files an order whose total is `-1`. -/
theorem C16_negative_total_counterexample :
    (seeded.run negativeRun).orders.map Order.total = [-1]
    ∧ ¬ (∀ o ∈ (seeded.run negativeRun).orders, 0 ≤ o.total) := by
  have e : (seeded.run negativeRun).orders.map Order.total = [-1] := by
    simp [Pizzeria.run, negativeRun, Pizzeria.dispatch, Pizzeria.addMenuItem,
      Menu.addNewItem, Pizzeria.takeOrder, Pizzeria.itemLoop, Menu.getItemCopy, seeded_menu,
      Pizzeria.toppingLoop, Order.addItem, Order.calculateTotal, Heap.getPrice, Heap.read,
      Heap.clone, Heap.alloc, seeded_next, MenuItem.clone_eq, MenuItem.getPrice, Order.new,
      Pizza.mk, seeded, Pizzeria.new, Menu.new, Heap.empty, Function.update,
      OrderType.DELIVERY]
  refine ⟨e, ?_⟩
  intro hall
  have hmem : (-1 : ℚ) ∈ (seeded.run negativeRun).orders.map Order.total := by
    rw [e]
    exact List.mem_singleton.mpr rfl
  obtain ⟨o, ho, hoe⟩ := List.mem_map.mp hmem
  have h0 := hall o ho
  rw [hoe] at h0
  norm_num at h0

/-- C16, amended: in every state reached from a freshly constructed pizzeria by a run of the
main loop in which every `addMenuItem` pass that adds an entry is given a non-negative price,
every order's total is non-negative. -/
theorem C16_totals_nonneg_when_prices_nonneg (h : Heap) (cs : List Command)
    (hcs : ∀ c ∈ cs, c.PriceOk) :
    ∀ o ∈ ((Pizzeria.new h).run cs).orders, 0 ≤ o.total :=
  (Pizzeria.run_totals cs (Pizzeria.new h) (Pizzeria.new_totals h) hcs).2

/-- C16 (amended) on a concrete run: two orders taken around the addition of the Sprite at
`1.75`. -/
theorem C16_totals_nonneg_when_prices_nonneg_witness :
    (∀ c ∈ demoRun, c.PriceOk)
    ∧ ∀ o ∈ ((Pizzeria.new Heap.empty).run demoRun).orders, 0 ≤ o.total := by
  have hok : ∀ c ∈ demoRun, c.PriceOk := by
    intro c hc
    simp only [demoRun, List.mem_cons, List.mem_singleton, List.not_mem_nil, or_false] at hc
    rcases hc with rfl | rfl | rfl | rfl | rfl
    · trivial
    · trivial
    · intro _
      norm_num
    · trivial
    · trivial
  exact ⟨hok, C16_totals_nonneg_when_prices_nonneg Heap.empty demoRun hok⟩

/-- C18: in the item loop of `takeOrder`, an entered index other than `-1` and `-2` that is
outside `0..size-1` (any other negative number included) prints "Invalid item." and leaves the
order and the store as they were, the loop going on with the next pass.  In the topping loop an
index within `0..5` appends exactly that predefined topping to the item and any other index
prints "Invalid topping index." and appends nothing, so the item ends up with the toppings it
had followed by the chosen ones.  An index that selects a catalog entry clones it, gives the
clone the chosen toppings, and adds the clone to the order whatever invalid topping indices
were entered on the way. -/
theorem C18_itemLoop_entries (menu : Menu) (h : Heap) (o : Order) (r : Round)
    (rest : List Round) (item : Ptr) (ti : Int) (tis : List Int) :
    (r.index ≠ -1 → r.index ≠ -2 → ¬ (0 ≤ r.index ∧ r.index < (menu.items.length : Int)) →
      Pizzeria.itemLoop menu h o (r :: rest)
        = ((Pizzeria.itemLoop menu h o rest).1, (Pizzeria.itemLoop menu h o rest).2.1,
            "Invalid item.\n" :: (Pizzeria.itemLoop menu h o rest).2.2))
    ∧ (0 ≤ ti ∧ ti < 6 →
        ∃ t, Pizzeria.predefinedToppings[ti.toNat]? = some t
          ∧ Pizzeria.toppingLoop h item (ti :: tis)
              = Pizzeria.toppingLoop (h.addTopping item t) item tis)
    ∧ (¬ (0 ≤ ti ∧ ti < 6) →
        Pizzeria.toppingLoop h item (ti :: tis)
          = ((Pizzeria.toppingLoop h item tis).1,
              "Invalid topping index.\n" :: (Pizzeria.toppingLoop h item tis).2))
    ∧ ((Pizzeria.toppingLoop h item tis).1.read item).toppings
        = (h.read item).toppings ++ Pizzeria.chosenToppings tis
    ∧ (∀ q, q ≠ item → (Pizzeria.toppingLoop h item tis).1.read q = h.read q)
    ∧ (r.index ≠ -1 → r.index ≠ -2 → (0 ≤ r.index ∧ r.index < (menu.items.length : Int)) →
        ∃ p h1, menu.items[r.index.toNat]? = some p
          ∧ h1 = (Pizzeria.toppingLoop (h.clone p).1 h.next r.toppingIndices).1
          ∧ (h1.read h.next).variant = (h.read p).variant
          ∧ (h1.read h.next).name = (h.read p).name
          ∧ (h1.read h.next).price = (h.read p).price
          ∧ (h1.read h.next).toppings
              = (h.read p).toppings ++ Pizzeria.chosenToppings r.toppingIndices
          ∧ (o.addItem h1 (some h.next)).items = o.items ++ [h.next]
          ∧ Pizzeria.itemLoop menu h o (r :: rest)
              = ((Pizzeria.itemLoop menu h1 (o.addItem h1 (some h.next)) rest).1,
                  (Pizzeria.itemLoop menu h1 (o.addItem h1 (some h.next)) rest).2.1,
                  (Pizzeria.toppingLoop (h.clone p).1 h.next r.toppingIndices).2
                    ++ (Pizzeria.itemLoop menu h1 (o.addItem h1 (some h.next)) rest).2.2)) := by
  have hlen : (Pizzeria.predefinedToppings.length : Int) = 6 := rfl
  refine ⟨?_, ?_, ?_, ?_, ?_, ?_⟩
  · intro h1 h2 hout
    rcases Menu.getItemCopy_cases menu h r.index with ⟨-, hres⟩ | ⟨hin, -⟩
    · simp only [Pizzeria.itemLoop, if_neg h1, if_neg h2, hres]
    · exact absurd hin hout
  · intro hin
    have hin2 : 0 ≤ ti ∧ ti < (Pizzeria.predefinedToppings.length : Int) := by
      rw [hlen]; exact hin
    have hlt : ti.toNat < Pizzeria.predefinedToppings.length := by
      have h6 : Pizzeria.predefinedToppings.length = 6 := rfl
      omega
    refine ⟨Pizzeria.predefinedToppings[ti.toNat], List.getElem?_eq_getElem hlt, ?_⟩
    simp only [Pizzeria.toppingLoop, if_pos hin2, List.getElem?_eq_getElem hlt]
  · intro hout
    have hout2 : ¬ (0 ≤ ti ∧ ti < (Pizzeria.predefinedToppings.length : Int)) := by
      rw [hlen]; exact hout
    simp only [Pizzeria.toppingLoop, if_neg hout2]
  · rw [Pizzeria.toppingLoop_heap, Heap.read_addToppings_same, MenuItem.addToppings_eq]
  · intro q hq
    rw [Pizzeria.toppingLoop_heap, Heap.read_addToppings_ne _ _ q _ hq]
  · intro h1 h2 hin
    rcases Menu.getItemCopy_cases menu h r.index with ⟨hout, -⟩ | ⟨-, p, hget, hres⟩
    · exact absurd hin hout
    · have hc : (h.clone p).1.read h.next = h.read p := by
        simp only [Heap.clone]
        rw [Heap.read_alloc_new, MenuItem.clone_eq]
      have hread : (Pizzeria.toppingLoop (h.clone p).1 h.next r.toppingIndices).1.read h.next
          = { h.read p with
              toppings := (h.read p).toppings ++ Pizzeria.chosenToppings r.toppingIndices } := by
        rw [Pizzeria.toppingLoop_heap, Heap.read_addToppings_same, MenuItem.addToppings_eq, hc]
      refine ⟨p, _, hget, rfl, ?_, ?_, ?_, ?_, rfl, ?_⟩
      · rw [hread]
      · rw [hread]
      · rw [hread]
      · rw [hread]
      · simp only [Pizzeria.itemLoop, if_neg h1, if_neg h2, hres]

/-- C18 on the seeded pizzeria: index `9` adds nothing; over the mixed passes the Pepperoni
clone (address `4`) gets only the topping of index `3`, the indices `7` and `-1` being
rejected, and is still added; the Garlic Bread clone (address `5`) gets Tomatoes; after the
removal of position `0` the order holds the Garlic Bread alone. -/
theorem C18_itemLoop_entries_witness :
    ((9 : Int) ≠ -1 ∧ (9 : Int) ≠ -2
      ∧ ¬ ((0 : Int) ≤ 9 ∧ (9 : Int) < (seeded.menu.items.length : Int)))
    ∧ Pizzeria.itemLoop seeded.menu seeded.heap alice
        [{ index := 9, removeIndex := 0, toppingIndices := [0] }]
        = (seeded.heap, alice, ["Invalid item.\n"])
    ∧ (Pizzeria.itemLoop seeded.menu seeded.heap alice mixedRounds).2.1.items = [5]
    ∧ ((Pizzeria.itemLoop seeded.menu seeded.heap alice mixedRounds).1.read 4).toppings
        = [{ name := "Pepperoni", price := 0.6 }]
    ∧ ((Pizzeria.itemLoop seeded.menu seeded.heap alice mixedRounds).1.read 5).toppings
        = [{ name := "Tomatoes", price := 0.25 }]
    ∧ (Pizzeria.itemLoop seeded.menu seeded.heap alice mixedRounds).2.2
        = ["Invalid item.\n", "Invalid item.\n", "Invalid topping index.\n",
           "Invalid topping index.\n", "Invalid index.\n", "Item removed from order.\n"]
    ∧ (Pizzeria.itemLoop seeded.menu seeded.heap alice mixedRounds).2.1.total = 2.25 := by
  refine ⟨⟨by decide, by decide, by decide⟩,
    (C18_itemLoop_entries seeded.menu seeded.heap alice
      { index := 9, removeIndex := 0, toppingIndices := [0] } [] 0 0 []).1
      (by decide) (by decide) (by decide), ?_, ?_, ?_, ?_, ?_⟩ <;>
  simp [Pizzeria.itemLoop, mixedRounds, Menu.getItemCopy, seeded_menu,
    Pizzeria.toppingLoop, Pizzeria.predefinedToppings, Order.addItem, Order.removeItem,
    Heap.getPrice, Heap.read, Heap.addTopping, Heap.write, Heap.clone,
    Heap.alloc, seeded_next, MenuItem.clone_eq, MenuItem.getPrice, MenuItem.addTopping, alice,
    Order.new, Topping.getPrice] <;>
  simp [seeded, Pizzeria.new, Menu.new, Heap.alloc, Heap.empty, Pizza.mk, Drink.mk,
    SideDish.mk, Function.update]
  norm_num

end ConsoleApplication3
